import Mathlib

/-!
# Red-black tree of `src/rbt.cpp`

A shallow embedding of the template `RedBlackTree<Tkey, Tval>`.

* A `shared_ptr<Node>` is one of three things: `nullptr`, the tree-wide sentinel
  `doubleBlackNilNode`, or a pointer to an ordinary node.  The tree has no sharing, so a
  pointer to an ordinary node is modelled by the node itself.
* The C++ functions mutate nodes in place and return the new subtree root; here they are
  pure functions returning the new subtree.
* A function returns `none` where the C++ code would fail: an `assert` that does not hold,
  a dereference of `nullptr`, or a write through (or a key/value read of) the sentinel
  `doubleBlackNilNode`, whose fields the model does not track.  The sentinel is created by
  `make_shared<Node>()`, which value-initialises it: its color field is `0 = RED` and both
  of its children are `nullptr`; these reads are modelled as such.
* `Tkey` is a linearly ordered type (`==` and `<` of the source), `Tval` is arbitrary.
-/

namespace RedBlackTree

/-- The enumeration `Color` with its numeric scale `RED = 0`, `BLACK = 1`, `DOUBLE_BLACK = 2`. -/
inductive Color where
  | RED
  | BLACK
  | DOUBLE_BLACK
  deriving DecidableEq, Repr

/-- A value of type `shared_ptr<Node>`. -/
inductive Node (K V : Type) where
  | nil : Node K V
  | doubleBlackNilNode : Node K V
  | node (key : K) (val : V) (color : Color) (left right : Node K V) : Node K V
  deriving DecidableEq, Repr

open Color Node

variable {K V : Type}

instance : Inhabited (Node K V) := ⟨nil⟩

instance : Inhabited Color := ⟨RED⟩

/-- The integer behind a color, as in `static_cast<int>(color)`. -/
def Color.toNat : Color → Nat
  | RED => 0
  | BLACK => 1
  | DOUBLE_BLACK => 2

/-- The field read `n->left`; `none` when `n` is `nullptr`. -/
def Node.left? : Node K V → Option (Node K V)
  | nil => none
  | doubleBlackNilNode => some nil
  | node _ _ _ l _ => some l

/-- The field read `n->right`; `none` when `n` is `nullptr`. -/
def Node.right? : Node K V → Option (Node K V)
  | nil => none
  | doubleBlackNilNode => some nil
  | node _ _ _ _ r => some r

/-- The pointer test `!p`. -/
def is_null : Node K V → Bool
  | nil => true
  | doubleBlackNilNode => false
  | node _ _ _ _ _ => false

/-- The source's `is_red`: `n != nullptr && n->color == RED`. -/
def is_red : Node K V → Bool
  | nil => false
  | doubleBlackNilNode => true
  | node _ _ c _ _ => decide (c = RED)

/-- The source's `is_black`: `n == nullptr || n->color == BLACK`. -/
def is_black : Node K V → Bool
  | nil => true
  | doubleBlackNilNode => false
  | node _ _ c _ _ => decide (c = BLACK)

/-- The source's `is_double_black`:
`n != nullptr && (n == doubleBlackNilNode || n->color == DOUBLE_BLACK)`. -/
def is_double_black : Node K V → Bool
  | nil => false
  | doubleBlackNilNode => true
  | node _ _ c _ _ => decide (c = DOUBLE_BLACK)

/-- The source's `increment_color`: asserts the color is `RED` or `BLACK`, then adds one. -/
def increment_color : Node K V → Option (Node K V)
  | node k v RED l r => some (node k v BLACK l r)
  | node k v BLACK l r => some (node k v DOUBLE_BLACK l r)
  | node _ _ DOUBLE_BLACK _ _ => none
  | nil => none
  | doubleBlackNilNode => none

/-- The source's `decrement_color`: asserts the color is `BLACK` or `DOUBLE_BLACK`, then
subtracts one. -/
def decrement_color : Node K V → Option (Node K V)
  | node k v BLACK l r => some (node k v RED l r)
  | node k v DOUBLE_BLACK l r => some (node k v BLACK l r)
  | node _ _ RED _ _ => none
  | nil => none
  | doubleBlackNilNode => none

/-- The source's `push_black`: `decrement_color(g)`, `increment_color(g->left)`,
`increment_color(g->right)`. -/
def push_black (g : Node K V) : Option (Node K V) :=
  match decrement_color g with
  | some (node k v c l r) =>
    match increment_color l with
    | some l1 =>
      match increment_color r with
      | some r1 => some (node k v c l1 r1)
      | none => none
    | none => none
  | some nil => none
  | some doubleBlackNilNode => none
  | none => none

/-- One child step of `pull_black`: the sentinel becomes `nullptr`, anything else is
decremented. -/
def pull_child : Node K V → Option (Node K V)
  | doubleBlackNilNode => some nil
  | nil => decrement_color nil
  | node k v c l r => decrement_color (node k v c l r)

/-- The source's `pull_black`: `increment_color(g)`, then each child is either cleared (when
it is the sentinel) or decremented. -/
def pull_black (g : Node K V) : Option (Node K V) :=
  match increment_color g with
  | some (node k v c l r) =>
    match pull_child l with
    | some l1 =>
      match pull_child r with
      | some r1 => some (node k v c l1 r1)
      | none => none
    | none => none
  | some nil => none
  | some doubleBlackNilNode => none
  | none => none

/-- The source's `rotate_right`: `u = g->left; g->left = u->right; u->right = g; return u`. -/
def rotate_right : Node K V → Option (Node K V)
  | node k v c (node lk lv lc ll lr) r => some (node lk lv lc ll (node k v c lr r))
  | node _ _ _ nil _ => none
  | node _ _ _ doubleBlackNilNode _ => none
  | nil => none
  | doubleBlackNilNode => none

/-- The source's `flip_right`: `swap(g->color, g->left->color)`, then `rotate_right(g)`. -/
def flip_right : Node K V → Option (Node K V)
  | node k v c (node lk lv lc ll lr) r => rotate_right (node k v lc (node lk lv c ll lr) r)
  | node _ _ _ nil _ => none
  | node _ _ _ doubleBlackNilNode _ => none
  | nil => none
  | doubleBlackNilNode => none

/-- The source's `rotate_left`: `u = g->right; g->right = u->left; u->left = g; return u`. -/
def rotate_left : Node K V → Option (Node K V)
  | node k v c l (node rk rv rc rl rr) => some (node rk rv rc (node k v c l rl) rr)
  | node _ _ _ _ nil => none
  | node _ _ _ _ doubleBlackNilNode => none
  | nil => none
  | doubleBlackNilNode => none

/-- The source's `flip_left`: `swap(g->color, g->right->color)`, then `rotate_left(g)`. -/
def flip_left : Node K V → Option (Node K V)
  | node k v c l (node rk rv rc rl rr) => rotate_left (node k v rc l (node rk rv c rl rr))
  | node _ _ _ _ nil => none
  | node _ _ _ _ doubleBlackNilNode => none
  | nil => none
  | doubleBlackNilNode => none

/-- The test `is_red(p) && is_red(p->left)` with its short circuit: `p->left` is read only
when `p` is red, hence not `nullptr`. -/
def red_with_red_left (p : Node K V) : Bool :=
  is_red p && (match p.left? with | some x => is_red x | none => false)

/-- The test `is_red(p) && is_red(p->right)` with its short circuit. -/
def red_with_red_right (p : Node K V) : Bool :=
  is_red p && (match p.right? with | some x => is_red x | none => false)

/-- The source's `fix_red_edge`. -/
def fix_red_edge : Node K V → Option (Node K V)
  | node k v c l r =>
    if is_red l && is_red r then push_black (node k v c l r)
    else
      -- red edge to the left of g
      match (if red_with_red_right l then rotate_left l else some l) with
      | none => none
      | some l1 =>
        if red_with_red_left l1 then flip_right (node k v c l1 r)
        else
          -- red edge to the right of g
          match (if red_with_red_left r then rotate_right r else some r) with
          | none => none
          | some r1 =>
            if red_with_red_right r1 then flip_left (node k v c l1 r1)
            else some (node k v c l1 r1)
  | nil => none
  | doubleBlackNilNode => none

/-- The source's `splice`. -/
def splice : Node K V → Option (Node K V)
  | nil => none
  | doubleBlackNilNode => some nil
  | node _ _ c l r =>
    if c = RED then
      -- assert(w->left == nullptr && w->right == nullptr)
      if is_null l && is_null r then some nil else none
    else
      match l with
      | node lk lv lc ll lr => if lc = RED then some (node lk lv BLACK ll lr) else none
      | doubleBlackNilNode => none
      | nil =>
        match r with
        | node rk rv rc rl rr => if rc = RED then some (node rk rv BLACK rl rr) else none
        | doubleBlackNilNode => none
        | nil => some doubleBlackNilNode

/-- The source's `fix_left_doubleblack_right_black`. -/
def fix_left_doubleblack_right_black : Node K V → Option (Node K V)
  | node k v c l r =>
    if is_double_black l && is_black r then
      match pull_black (node k v c l r) with
      | some (node k1 v1 c1 l1 r1) =>
        r1.left?.bind fun rl =>
        r1.right?.bind fun rr =>
        (if is_red rl && is_black rr then rotate_right r1 else some r1).bind fun r2 =>
        r2.right?.bind fun rr2 =>
        if is_red rr2 then (flip_left (node k1 v1 c1 l1 r2)).bind push_black
        else some (node k1 v1 c1 l1 r2)
      | some nil => none
      | some doubleBlackNilNode => none
      | none => none
    else none
  | nil => none
  | doubleBlackNilNode => none

/-- The source's `fix_left_doubleblack`. -/
def fix_left_doubleblack : Node K V → Option (Node K V)
  | node k v c l r =>
    if is_double_black l then
      if is_red r then
        match flip_left (node k v c l r) with
        | some (node k1 v1 c1 l1 r1) =>
          match fix_left_doubleblack_right_black l1 with
          | some l2 => some (node k1 v1 c1 l2 r1)
          | none => none
        | some nil => none
        | some doubleBlackNilNode => none
        | none => none
      else fix_left_doubleblack_right_black (node k v c l r)
    else none
  | nil => none
  | doubleBlackNilNode => none

/-- The source's `fix_right_doubleblack_left_black`. -/
def fix_right_doubleblack_left_black : Node K V → Option (Node K V)
  | node k v c l r =>
    if is_double_black r && is_black l then
      match pull_black (node k v c l r) with
      | some (node k1 v1 c1 l1 r1) =>
        l1.right?.bind fun lr =>
        l1.left?.bind fun ll =>
        (if is_red lr && is_black ll then rotate_left l1 else some l1).bind fun l2 =>
        l2.left?.bind fun ll2 =>
        if is_red ll2 then (flip_right (node k1 v1 c1 l2 r1)).bind push_black
        else some (node k1 v1 c1 l2 r1)
      | some nil => none
      | some doubleBlackNilNode => none
      | none => none
    else none
  | nil => none
  | doubleBlackNilNode => none

/-- The source's `fix_right_doubleblack`. -/
def fix_right_doubleblack : Node K V → Option (Node K V)
  | node k v c l r =>
    if is_double_black r then
      if is_red l then
        match flip_right (node k v c l r) with
        | some (node k1 v1 c1 l1 r1) =>
          match fix_right_doubleblack_left_black r1 with
          | some r2 => some (node k1 v1 c1 l1 r2)
          | none => none
        | some nil => none
        | some doubleBlackNilNode => none
        | none => none
      else fix_right_doubleblack_left_black (node k v c l r)
    else none
  | nil => none
  | doubleBlackNilNode => none

/-- The source's `fix_doubleblack`. -/
def fix_doubleblack : Node K V → Option (Node K V)
  | nil => none
  | doubleBlackNilNode => some doubleBlackNilNode
  | node k v c l r =>
    if is_double_black l then fix_left_doubleblack (node k v c l r)
    else if is_double_black r then fix_right_doubleblack (node k v c l r)
    else some (node k v c l r)

/-- The source's `extract_min(u, v)`.  The returned triple is the new subtree together with
the key and the value that the source writes into `v`. -/
def extract_min : Node K V → Option (Node K V × K × V)
  | nil => none
  | doubleBlackNilNode => none
  | node k v c l r =>
    if is_null l then
      match splice (node k v c l r) with
      | some t => some (t, k, v)
      | none => none
    else
      match extract_min l with
      | some (l1, mk, mv) =>
        match fix_doubleblack (node k v c l1 r) with
        | some t => some (t, mk, mv)
        | none => none
      | none => none

section
variable [LinearOrder K]

/-- The source's `insert_helper`. -/
def insert_helper : Node K V → K → V → Option (Node K V)
  | nil, newKey, newVal => some (node newKey newVal RED nil nil)
  | doubleBlackNilNode, _, _ => none
  | node k v c l r, newKey, newVal =>
    if k = newKey then some (node k newVal c l r)
    else if newKey < k then
      match insert_helper l newKey newVal with
      | some l1 => fix_red_edge (node k v c l1 r)
      | none => none
    else
      match insert_helper r newKey newVal with
      | some r1 => fix_red_edge (node k v c l r1)
      | none => none

/-- The public `insert`: `insert_helper` on the root, then a red root is recolored black. -/
def insert (root : Node K V) (key : K) (val : V) : Option (Node K V) :=
  match insert_helper root key val with
  | some (node k v c l r) => some (node k v (if c = RED then BLACK else c) l r)
  | some nil => none
  | some doubleBlackNilNode => none
  | none => none

/-- The source's `remove_helper`. -/
def remove_helper : Node K V → K → Option (Node K V)
  | nil, _ => some nil
  | doubleBlackNilNode, _ => none
  | node k v c l r, key =>
    if key = k then
      if is_null r || is_null l then splice (node k v c l r)
      else
        match extract_min r with
        | some (r1, mk, mv) => fix_doubleblack (node mk mv c l r1)
        | none => none
    else if key < k then
      match remove_helper l key with
      | some l1 => fix_doubleblack (node k v c l1 r)
      | none => none
    else
      match remove_helper r key with
      | some r1 => fix_doubleblack (node k v c l r1)
      | none => none

/-- The public `remove`: `remove_helper` on the root, then a deficient root is resolved (the
sentinel becomes `nullptr`, a `DOUBLE_BLACK` root becomes `BLACK`). -/
def remove (root : Node K V) (key : K) : Option (Node K V) :=
  match remove_helper root key with
  | none => none
  | some nil => some nil
  | some doubleBlackNilNode => some nil
  | some (node k v c l r) =>
    if c = DOUBLE_BLACK then some (node k v BLACK l r) else some (node k v c l r)

end

/-! ## Debug print -/

/-- A line written to `cout` by `debug_print_helper`: a node line `key:COLOR:val` behind
`indent` blanks (the source prints `RED` for a red node and `BLACK` for every other color), a
`nil` line, or one of the three `ERROR!` lines. -/
inductive Line (K V : Type) where
  | node_line (indent : Nat) (key : K) (red : Bool) (val : V) : Line K V
  | nil_line (indent : Nat) : Line K V
  | height_error : Line K V
  | red_error : Line K V
  | color_error : Line K V
  deriving DecidableEq, Repr

/-- The line is one of the `ERROR!` lines. -/
def Line.is_error : Line K V → Bool
  | Line.node_line _ _ _ _ => false
  | Line.nil_line _ => false
  | Line.height_error => true
  | Line.red_error => true
  | Line.color_error => true

/-- The source's `debug_print_helper`: the value it returns together with the lines it prints,
in order.  It returns `none` where the source leaves the function without a `return` (a node
whose color is neither `RED` nor `BLACK`) and where it would print the key of the sentinel. -/
def debug_print_helper : Node K V → Nat → Option (Nat × List (Line K V))
  | nil, indent => some (0, [Line.nil_line indent])
  | doubleBlackNilNode, _ => none
  | node k v c l r, indent =>
    -- if (v->left || v->right) { leftBlack = ...; rightBlack = ...; }
    (if is_null l && is_null r then some ((0, []), (0, []))
      else (debug_print_helper l (indent + 4)).bind fun a =>
        (debug_print_helper r (indent + 4)).bind fun b => some (a, b)).bind fun sub =>
    let leftBlack := sub.1.1
    let rightBlack := sub.2.1
    let out := Line.node_line indent k (decide (c = RED)) v :: (sub.1.2 ++ sub.2.2)
      ++ (if leftBlack ≠ rightBlack then [Line.height_error] else [])
      ++ (if is_red (node k v c l r) && (is_red l || is_red r) then [Line.red_error] else [])
    match c with
    | BLACK => some (leftBlack + 1, out)
    | RED => some (leftBlack, out)
    | DOUBLE_BLACK => none

/-- The public `debug_print`: `debug_print_helper(root, 0)`. -/
def debug_print (root : Node K V) : Option (Nat × List (Line K V)) :=
  debug_print_helper root 0

/-! ## Observations and invariants -/

/-- The in-order sequence of key/value pairs stored in a subtree. -/
@[simp]
def toList : Node K V → List (K × V)
  | nil => []
  | doubleBlackNilNode => []
  | node k v _ l r => toList l ++ (k, v) :: toList r

/-- The in-order sequence of keys stored in a subtree. -/
def keys (t : Node K V) : List K := (toList t).map Prod.fst

/-- An ordinary node colored `RED`. -/
def red_node : Node K V → Bool
  | node _ _ c _ _ => decide (c = RED)
  | nil => false
  | doubleBlackNilNode => false

/-- Every node is `RED` or `BLACK` and no child position holds the sentinel. -/
@[simp]
def clean : Node K V → Bool
  | nil => true
  | doubleBlackNilNode => false
  | node _ _ c l r => decide (c ≠ DOUBLE_BLACK) && clean l && clean r

/-- Invariant 2: no red node has a red child. -/
@[simp]
def no_red_red : Node K V → Bool
  | node _ _ c l r =>
    (decide (c ≠ RED) || (!red_node l && !red_node r)) && no_red_red l && no_red_red r
  | nil => true
  | doubleBlackNilNode => true

/-- For every path from the root of the subtree to an empty subtree, the number of `BLACK`
nodes on it. -/
def black_counts : Node K V → List Nat
  | nil => [0]
  | doubleBlackNilNode => [0]
  | node _ _ c l r =>
    (black_counts l ++ black_counts r).map fun n => if c = BLACK then n + 1 else n

/-- Invariant 3: every path from the root to an empty subtree passes through the same number
of black nodes. -/
def uniform_black (t : Node K V) : Prop :=
  ∀ a ∈ black_counts t, ∀ b ∈ black_counts t, a = b

instance (t : Node K V) : Decidable (uniform_black t) :=
  inferInstanceAs (Decidable (∀ a ∈ black_counts t, ∀ b ∈ black_counts t, a = b))

section
variable [LinearOrder K]

/-- Invariants 1 and 4: every node's key is greater than all keys of its left subtree and
less than all keys of its right subtree. -/
def ordered : Node K V → Bool
  | node k _ _ l r =>
    (keys l).all (fun x => decide (x < k)) && (keys r).all (fun x => decide (k < x))
      && ordered l && ordered r
  | nil => true
  | doubleBlackNilNode => true

/-- Invariants 1-4 together with the data model: the keys are strictly ordered, no red node
has a red child, all paths hold the same number of black nodes, every node is `RED` or `BLACK`
and the sentinel occurs nowhere. -/
def invariants (t : Node K V) : Prop :=
  ordered t = true ∧ no_red_red t = true ∧ uniform_black t ∧ clean t = true

instance (t : Node K V) : Decidable (invariants t) :=
  inferInstanceAs (Decidable (_ ∧ _ ∧ _ ∧ _))

/-- A tree as the public interface hands it over: the invariants hold and the root is black or
the tree is empty. -/
def valid (t : Node K V) : Prop :=
  invariants t ∧ red_node t = false

instance (t : Node K V) : Decidable (valid t) :=
  inferInstanceAs (Decidable (_ ∧ _))

end

/-! ## Auxiliary measures used in the proofs -/

/-- The blackness a color contributes to a path: its position on the color scale. -/
def Color.weight (c : Color) : Nat := c.toNat

/-- Weighted black-height along the leftmost path: a `DOUBLE_BLACK` node counts twice and the
sentinel counts as one missing black node. -/
@[simp]
def wbh : Node K V → Nat
  | nil => 0
  | doubleBlackNilNode => 1
  | node _ _ c l _ => wbh l + c.weight

/-- The two children of every node have the same weighted black-height. -/
@[simp]
def balanced : Node K V → Bool
  | node _ _ _ l r => decide (wbh l = wbh r) && balanced l && balanced r
  | nil => true
  | doubleBlackNilNode => true

/-- The children are free of red-red edges, and a red root has at most one red child: the
state of a subtree handed back by `insert_helper`. -/
def almost : Node K V → Bool
  | node _ _ c l r =>
    no_red_red l && no_red_red r && (decide (c ≠ RED) || !(red_node l && red_node r))
  | nil => true
  | doubleBlackNilNode => true

/-- The state of a subtree handed back by `remove_helper`: the sentinel, or a node (possibly
`DOUBLE_BLACK`) whose children are clean, or the empty subtree. -/
def semi_clean : Node K V → Bool
  | nil => true
  | doubleBlackNilNode => true
  | node _ _ _ l r => clean l && clean r

/-- The relation between a clean subtree `t` and what a removal hands back for it. -/
def removal_result (t t1 : Node K V) : Prop :=
  semi_clean t1 = true ∧ balanced t1 = true ∧ wbh t1 = wbh t ∧ no_red_red t1 = true ∧
    (red_node t1 = true → red_node t = true) ∧ (red_node t = true → clean t1 = true)

/-! ## Observations used to state the claims -/

/-- The color of the root node, if the subtree is an ordinary node. -/
def root_color : Node K V → Option Color
  | nil => none
  | doubleBlackNilNode => none
  | node _ _ c _ _ => some c

/-- The key and value of the leftmost node of a subtree. -/
def leftmost : Node K V → Option (K × V)
  | nil => none
  | doubleBlackNilNode => none
  | node k v _ l _ =>
    match leftmost l with
    | some p => some p
    | none => some (k, v)

/-- The number of nodes on the longest path from the root to an empty subtree. -/
def height : Node K V → Nat
  | nil => 0
  | doubleBlackNilNode => 0
  | node _ _ _ l r => max (height l) (height r) + 1

/-- The in-order sequence of the nodes of a subtree, each with its key, value and color. -/
def colored : Node K V → List (K × V × Color)
  | nil => []
  | doubleBlackNilNode => []
  | node k v c l r => colored l ++ (k, v, c) :: colored r

/-- The black-height read along the leftmost path, where a `DOUBLE_BLACK` node is counted as
one black node and the sentinel as an empty subtree. -/
def black_height : Node K V → Nat
  | nil => 0
  | doubleBlackNilNode => 0
  | node _ _ c l _ => black_height l + (if c = RED then 0 else 1)

/-- An ordinary node one of whose children is an ordinary red node. -/
def has_red_child : Node K V → Bool
  | nil => false
  | doubleBlackNilNode => false
  | node _ _ _ l r => red_node l || red_node r

/-- A call of the public interface. -/
inductive Call (K V : Type) where
  | insert (key : K) (val : V) : Call K V
  | remove (key : K) : Call K V

/-- The structure and the colors of a subtree, with keys and values erased. -/
def shape : Node K V → Node Unit Unit
  | nil => nil
  | doubleBlackNilNode => doubleBlackNilNode
  | node _ _ c l r => node () () c (shape l) (shape r)

section
variable [LinearOrder K]

/-- A sequence of public `insert` calls, as in the loop of `main`. -/
def insert_all : Node K V → List (K × V) → Option (Node K V)
  | t, [] => some t
  | t, (k, v) :: rest => (insert t k v).bind fun t1 => insert_all t1 rest

/-- A sequence of public `remove` calls. -/
def remove_all : Node K V → List K → Option (Node K V)
  | t, [] => some t
  | t, k :: rest => (remove t k).bind fun t1 => remove_all t1 rest

/-- A finite sequence of public `insert` and `remove` calls, run one after the other. -/
def run : Node K V → List (Call K V) → Option (Node K V)
  | t, [] => some t
  | t, Call.insert k v :: rest => (insert t k v).bind fun t1 => run t1 rest
  | t, Call.remove k :: rest => (remove t k).bind fun t1 => run t1 rest

/-- The number of nested calls of `insert_helper` when `insert_helper(g, newKey, _)` runs. -/
def insert_depth : Node K V → K → Nat
  | nil, _ => 1
  | doubleBlackNilNode, _ => 1
  | node k _ _ l r, newKey =>
    if k = newKey then 1
    else if newKey < k then insert_depth l newKey + 1
    else insert_depth r newKey + 1

/-- The number of nested calls of `extract_min` when `extract_min(u, _)` runs. -/
def extract_min_depth : Node K V → Nat
  | nil => 1
  | doubleBlackNilNode => 1
  | node _ _ _ l _ => if is_null l then 1 else extract_min_depth l + 1

/-- The number of nested calls of `remove_helper` and `extract_min` when
`remove_helper(v, key)` runs. -/
def remove_depth : Node K V → K → Nat
  | nil, _ => 1
  | doubleBlackNilNode, _ => 1
  | node k _ _ l r, key =>
    if key = k then
      if is_null r || is_null l then 1 else extract_min_depth r + 1
    else if key < k then remove_depth l key + 1
    else remove_depth r key + 1

/-- The value most recently given for `k` in a sequence of key/value pairs. -/
def latest : List (K × V) → K → Option V
  | [], _ => none
  | (k1, v1) :: rest, k =>
    match latest rest k with
    | some v => some v
    | none => if k1 = k then some v1 else none

/-- The subtree with the value of the node found by searching for `k` replaced by `v`. -/
def set_val (k : K) (v : V) : Node K V → Node K V
  | node key val c l r =>
    if key = k then node key v c l r
    else if k < key then node key val c (set_val k v l) r
    else node key val c l (set_val k v r)
  | nil => nil
  | doubleBlackNilNode => doubleBlackNilNode

/-- Some node on the search path for `k`, strictly above the node holding `k`, has two red
children. -/
def two_red_above (k : K) : Node K V → Bool
  | node key _ _ l r =>
    if key = k then false
    else (red_node l && red_node r) ||
      (if k < key then two_red_above k l else two_red_above k r)
  | nil => false
  | doubleBlackNilNode => false

end

/-- The tree built by `insert` from the keys 1, 2, 3 (values ten times the key). -/
def tree_1_2_3 : Node Nat Nat :=
  node 2 20 BLACK (node 1 10 RED nil nil) (node 3 30 RED nil nil)

/-- The tree built by `insert` from the keys 10, 20, ..., 70 (value equal to key). -/
def tree_10_to_70 : Node Nat Nat :=
  node 20 20 BLACK (node 10 10 BLACK nil nil)
    (node 40 40 RED (node 30 30 BLACK nil nil)
      (node 60 60 BLACK (node 50 50 RED nil nil) (node 70 70 RED nil nil)))

/-- A valid tree in which a black node with two red children hangs below a red node whose
sibling is black. -/
def tree_red_parent : Node Nat Nat :=
  node 50 50 BLACK
    (node 20 20 RED
      (node 10 10 BLACK (node 5 5 RED nil nil) (node 15 15 RED nil nil))
      (node 30 30 BLACK nil nil))
    (node 60 60 BLACK nil nil)

/-- A valid tree whose root has two children, a black left child with a red left child and a
black leaf as right child. -/
def tree_5_10_20_30 : Node Nat Nat :=
  node 20 20 BLACK (node 10 10 BLACK (node 5 5 RED nil nil) nil) (node 30 30 BLACK nil nil)

/-- The key/value pairs that `main` inserts: the keys 0, 1, ..., 7, each with itself as value. -/
def main_pairs : List (Nat × Nat) :=
  [(0, 0), (1, 1), (2, 2), (3, 3), (4, 4), (5, 5), (6, 6), (7, 7)]

/-! ## Evaluation of the primitives on constructors -/

section eval
variable (k lk rk : K) (v lv rv : V) (c lc rc : Color) (l r ll lr rl rr : Node K V)

@[simp] theorem toNat_RED : RED.toNat = 0 := rfl
@[simp] theorem toNat_BLACK : BLACK.toNat = 1 := rfl
@[simp] theorem toNat_DOUBLE_BLACK : DOUBLE_BLACK.toNat = 2 := rfl
@[simp] theorem weight_RED : RED.weight = 0 := rfl
@[simp] theorem weight_BLACK : BLACK.weight = 1 := rfl
@[simp] theorem weight_DOUBLE_BLACK : DOUBLE_BLACK.weight = 2 := rfl

@[simp] theorem left_nil : (nil : Node K V).left? = none := rfl
@[simp] theorem left_marker : (doubleBlackNilNode : Node K V).left? = some nil := rfl
@[simp] theorem left_node : (node k v c l r).left? = some l := rfl
@[simp] theorem right_nil : (nil : Node K V).right? = none := rfl
@[simp] theorem right_marker : (doubleBlackNilNode : Node K V).right? = some nil := rfl
@[simp] theorem right_node : (node k v c l r).right? = some r := rfl

@[simp] theorem is_red_nil : is_red (nil : Node K V) = false := rfl
@[simp] theorem is_red_marker : is_red (doubleBlackNilNode : Node K V) = true := rfl
@[simp] theorem is_red_node : is_red (node k v c l r) = decide (c = RED) := rfl
@[simp] theorem is_black_nil : is_black (nil : Node K V) = true := rfl
@[simp] theorem is_black_marker : is_black (doubleBlackNilNode : Node K V) = false := rfl
@[simp] theorem is_black_node : is_black (node k v c l r) = decide (c = BLACK) := rfl
@[simp] theorem is_double_black_nil : is_double_black (nil : Node K V) = false := rfl
@[simp] theorem is_double_black_marker :
    is_double_black (doubleBlackNilNode : Node K V) = true := rfl
@[simp] theorem is_double_black_node :
    is_double_black (node k v c l r) = decide (c = DOUBLE_BLACK) := rfl
@[simp] theorem is_null_nil : is_null (nil : Node K V) = true := rfl
@[simp] theorem is_null_marker : is_null (doubleBlackNilNode : Node K V) = false := rfl
@[simp] theorem is_null_node : is_null (node k v c l r) = false := rfl

@[simp] theorem red_node_nil : red_node (nil : Node K V) = false := rfl
@[simp] theorem red_node_marker : red_node (doubleBlackNilNode : Node K V) = false := rfl
@[simp] theorem red_node_node : red_node (node k v c l r) = decide (c = RED) := rfl

@[simp] theorem increment_color_nil : increment_color (nil : Node K V) = none := rfl
@[simp] theorem increment_color_marker :
    increment_color (doubleBlackNilNode : Node K V) = none := rfl
@[simp] theorem increment_color_RED :
    increment_color (node k v RED l r) = some (node k v BLACK l r) := rfl
@[simp] theorem increment_color_BLACK :
    increment_color (node k v BLACK l r) = some (node k v DOUBLE_BLACK l r) := rfl
@[simp] theorem increment_color_DOUBLE_BLACK :
    increment_color (node k v DOUBLE_BLACK l r) = none := rfl
@[simp] theorem decrement_color_nil : decrement_color (nil : Node K V) = none := rfl
@[simp] theorem decrement_color_marker :
    decrement_color (doubleBlackNilNode : Node K V) = none := rfl
@[simp] theorem decrement_color_RED : decrement_color (node k v RED l r) = none := rfl
@[simp] theorem decrement_color_BLACK :
    decrement_color (node k v BLACK l r) = some (node k v RED l r) := rfl
@[simp] theorem decrement_color_DOUBLE_BLACK :
    decrement_color (node k v DOUBLE_BLACK l r) = some (node k v BLACK l r) := rfl
@[simp] theorem pull_child_nil : pull_child (nil : Node K V) = none := rfl
@[simp] theorem pull_child_marker : pull_child (doubleBlackNilNode : Node K V) = some nil := rfl
@[simp] theorem pull_child_node :
    pull_child (node k v c l r) = decrement_color (node k v c l r) := rfl

@[simp] theorem rotate_right_node : rotate_right (node k v c (node lk lv lc ll lr) r) =
    some (node lk lv lc ll (node k v c lr r)) := rfl
@[simp] theorem rotate_right_nil_child : rotate_right (node k v c nil r) = none := rfl
@[simp] theorem rotate_left_node : rotate_left (node k v c l (node rk rv rc rl rr)) =
    some (node rk rv rc (node k v c l rl) rr) := rfl
@[simp] theorem rotate_left_nil_child : rotate_left (node k v c l nil) = none := rfl
@[simp] theorem flip_right_node : flip_right (node k v c (node lk lv lc ll lr) r) =
    some (node lk lv c ll (node k v lc lr r)) := rfl
@[simp] theorem flip_left_node : flip_left (node k v c l (node rk rv rc rl rr)) =
    some (node rk rv c (node k v rc l rl) rr) := rfl

@[simp] theorem push_black_RED : push_black (node k v RED l r) = none := rfl
@[simp] theorem push_black_BLACK : push_black (node k v BLACK l r) =
    (increment_color l).bind fun l1 =>
      (increment_color r).bind fun r1 => some (node k v RED l1 r1) := by
  simp only [push_black, decrement_color]
  cases increment_color l <;> cases increment_color r <;> rfl
@[simp] theorem push_black_DOUBLE_BLACK : push_black (node k v DOUBLE_BLACK l r) =
    (increment_color l).bind fun l1 =>
      (increment_color r).bind fun r1 => some (node k v BLACK l1 r1) := by
  simp only [push_black, decrement_color]
  cases increment_color l <;> cases increment_color r <;> rfl

@[simp] theorem pull_black_DOUBLE_BLACK : pull_black (node k v DOUBLE_BLACK l r) = none := rfl
@[simp] theorem pull_black_RED : pull_black (node k v RED l r) =
    (pull_child l).bind fun l1 => (pull_child r).bind fun r1 => some (node k v BLACK l1 r1) := by
  simp only [pull_black, increment_color]
  cases pull_child l <;> cases pull_child r <;> rfl
@[simp] theorem pull_black_BLACK : pull_black (node k v BLACK l r) =
    (pull_child l).bind fun l1 =>
      (pull_child r).bind fun r1 => some (node k v DOUBLE_BLACK l1 r1) := by
  simp only [pull_black, increment_color]
  cases pull_child l <;> cases pull_child r <;> rfl

@[simp] theorem red_with_red_left_nil : red_with_red_left (nil : Node K V) = false := rfl
@[simp] theorem red_with_red_left_node :
    red_with_red_left (node k v c l r) = (decide (c = RED) && is_red l) := rfl
@[simp] theorem red_with_red_right_nil : red_with_red_right (nil : Node K V) = false := rfl
@[simp] theorem red_with_red_right_node :
    red_with_red_right (node k v c l r) = (decide (c = RED) && is_red r) := rfl

@[simp] theorem almost_nil : almost (nil : Node K V) = true := rfl
@[simp] theorem almost_node : almost (node k v c l r) =
    (no_red_red l && no_red_red r && (decide (c ≠ RED) || !(red_node l && red_node r))) := rfl
@[simp] theorem semi_clean_nil : semi_clean (nil : Node K V) = true := rfl
@[simp] theorem semi_clean_marker : semi_clean (doubleBlackNilNode : Node K V) = true := rfl
@[simp] theorem semi_clean_node : semi_clean (node k v c l r) = (clean l && clean r) := rfl

end eval

/-! ## Red-edge repair -/

theorem red_node_eq {t : Node K V} (h : red_node t = true) :
    ∃ k v l r, t = node k v RED l r := by
  cases t with
  | nil => simp at h
  | doubleBlackNilNode => simp at h
  | node k v c l r => cases c <;> simp at h; exact ⟨k, v, l, r, rfl⟩

theorem is_red_of_clean {t : Node K V} (h : clean t = true) : is_red t = red_node t := by
  cases t with
  | nil => rfl
  | doubleBlackNilNode => simp at h
  | node k v c l r => cases c <;> simp

theorem is_black_of_clean {t : Node K V} (h : clean t = true) : is_black t = !red_node t := by
  cases t with
  | nil => rfl
  | doubleBlackNilNode => simp at h
  | node k v c l r => cases c <;> simp_all

theorem is_double_black_of_clean {t : Node K V} (h : clean t = true) :
    is_double_black t = false := by
  cases t with
  | nil => rfl
  | doubleBlackNilNode => simp at h
  | node k v c l r => cases c <;> simp_all

/-- A clean subtree without red-red edges shows no red edge at its root. -/
theorem red_with_red_left_false {t : Node K V} (hc : clean t = true) (hn : no_red_red t = true) :
    red_with_red_left t = false := by
  cases t with
  | nil => rfl
  | doubleBlackNilNode => simp at hc
  | node k v c l r =>
    have := is_red_of_clean (t := l)
    cases c <;> simp_all

theorem red_with_red_right_false {t : Node K V} (hc : clean t = true) (hn : no_red_red t = true) :
    red_with_red_right t = false := by
  cases t with
  | nil => rfl
  | doubleBlackNilNode => simp at hc
  | node k v c l r =>
    have := is_red_of_clean (t := r)
    cases c <;> simp_all

theorem fix_red_edge_left {k : K} {v : V} {l r : Node K V}
    (cl : clean l = true) (cr : clean r = true)
    (bl : balanced l = true) (br : balanced r = true) (hh : wbh l = wbh r)
    (al : almost l = true) (nr : no_red_red r = true) :
    ∃ t, fix_red_edge (node k v BLACK l r) = some t ∧ clean t = true ∧ balanced t = true ∧
      wbh t = wbh l + 1 ∧ no_red_red t = true ∧ toList t = toList (node k v BLACK l r) := by
  have r1 := red_with_red_left_false cr nr
  have r2 := red_with_red_right_false cr nr
  have ir := is_red_of_clean cr
  by_cases hl : red_node l = true
  · obtain ⟨lk, lv, ll, lr, rfl⟩ := red_node_eq hl
    simp only [clean, balanced, almost_node, wbh, weight_RED, Bool.and_eq_true,
      decide_eq_true_eq, Bool.or_eq_true, Bool.not_eq_true', ne_eq, not_true_eq_false,
      false_or, Nat.add_zero, Bool.and_eq_false_imp] at cl bl al hh ⊢
    obtain ⟨⟨-, cll⟩, clr⟩ := cl
    obtain ⟨⟨hw, bll⟩, blr⟩ := bl
    obtain ⟨⟨nll, nlr⟩, hx⟩ := al
    have ill := is_red_of_clean cll
    have ilr := is_red_of_clean clr
    by_cases hr : red_node r = true
    · obtain ⟨rk, rv, rl, rr, rfl⟩ := red_node_eq hr
      simp only [clean, balanced, no_red_red, wbh, weight_RED, Bool.and_eq_true,
        decide_eq_true_eq, Bool.or_eq_true, Bool.not_eq_true', ne_eq, not_true_eq_false,
        false_or, Nat.add_zero] at cr br nr hh
      refine ⟨node k v RED (node lk lv BLACK ll lr) (node rk rv BLACK rl rr),
        by simp [fix_red_edge], by simp [cll, clr, cr], ?_, by simp, ?_, by simp⟩
      · simp [bll, blr, br]; omega
      · simp [nll, nlr, nr]
    · simp only [Bool.not_eq_true] at hr
      by_cases hlr : red_node lr = true
      · obtain ⟨k1, v1, a, b, rfl⟩ := red_node_eq hlr
        have hll : red_node ll = false := by
          cases h : red_node ll
          · rfl
          · simp [hx h] at hlr
        simp only [clean, balanced, no_red_red, wbh, weight_RED, Bool.and_eq_true,
          decide_eq_true_eq, Bool.or_eq_true, Bool.not_eq_true', ne_eq, not_true_eq_false,
          false_or, Nat.add_zero] at clr blr nlr hw
        obtain ⟨⟨hw2, ba⟩, bb⟩ := blr
        refine ⟨node k1 v1 BLACK (node lk lv RED ll a) (node k v RED b r),
          by simp [fix_red_edge, ir, hr, r1, r2], by simp [cll, clr, cr], ?_, by simp, ?_,
          by simp⟩
        · simp [bll, ba, bb, br]; omega
        · simp [nll, nlr, nr, hll, hr]
      · simp only [Bool.not_eq_true] at hlr
        by_cases hll : red_node ll = true
        · obtain ⟨k1, v1, a, b, rfl⟩ := red_node_eq hll
          simp only [clean, balanced, no_red_red, wbh, weight_RED, Bool.and_eq_true,
            decide_eq_true_eq, Bool.or_eq_true, Bool.not_eq_true', ne_eq, not_true_eq_false,
            false_or, Nat.add_zero] at cll bll nll hw hh
          obtain ⟨⟨hw2, ba⟩, bb⟩ := bll
          refine ⟨node lk lv BLACK (node k1 v1 RED a b) (node k v RED lr r),
            by simp [fix_red_edge, ir, hr, r1, r2, ilr, hlr], by simp [cll, clr, cr], ?_,
            by simp, ?_, by simp⟩
          · simp [ba, bb, blr, br]; omega
          · simp [nll, nlr, nr, hlr, hr]
        · simp only [Bool.not_eq_true] at hll
          refine ⟨node k v BLACK (node lk lv RED ll lr) r,
            by simp [fix_red_edge, ir, hr, r1, r2, ilr, hlr, ill, hll],
            by simp [cll, clr, cr], ?_, by simp, ?_, by simp⟩
          · simp [bll, blr, br]; omega
          · simp [nll, nlr, nr, hlr, hll]
  · simp only [Bool.not_eq_true] at hl
    have il := is_red_of_clean cl
    have l1 : red_with_red_left l = false := by
      cases l <;> simp_all
    have l2 : red_with_red_right l = false := by
      cases l <;> simp_all
    have nl : no_red_red l = true := by
      cases l <;> simp_all
    refine ⟨node k v BLACK l r, by simp [fix_red_edge, il, hl, l1, l2, r1, r2],
      by simp [cl, cr], by simp [bl, br, hh], by simp, by simp [nl, nr], rfl⟩

theorem fix_red_edge_right {k : K} {v : V} {l r : Node K V}
    (cl : clean l = true) (cr : clean r = true)
    (bl : balanced l = true) (br : balanced r = true) (hh : wbh l = wbh r)
    (nl : no_red_red l = true) (ar : almost r = true) :
    ∃ t, fix_red_edge (node k v BLACK l r) = some t ∧ clean t = true ∧ balanced t = true ∧
      wbh t = wbh l + 1 ∧ no_red_red t = true ∧ toList t = toList (node k v BLACK l r) := by
  have l1 := red_with_red_left_false cl nl
  have l2 := red_with_red_right_false cl nl
  have il := is_red_of_clean cl
  by_cases hr : red_node r = true
  · obtain ⟨rk, rv, rl, rr, rfl⟩ := red_node_eq hr
    simp only [clean, balanced, almost_node, wbh, weight_RED, Bool.and_eq_true,
      decide_eq_true_eq, Bool.or_eq_true, Bool.not_eq_true', ne_eq, not_true_eq_false,
      false_or, Nat.add_zero, Bool.and_eq_false_imp] at cr br ar hh ⊢
    obtain ⟨⟨-, crl⟩, crr⟩ := cr
    obtain ⟨⟨hw, brl⟩, brr⟩ := br
    obtain ⟨⟨nrl, nrr⟩, hx⟩ := ar
    have irl := is_red_of_clean crl
    have irr := is_red_of_clean crr
    by_cases hl : red_node l = true
    · obtain ⟨lk, lv, ll, lr, rfl⟩ := red_node_eq hl
      simp only [clean, balanced, no_red_red, wbh, weight_RED, Bool.and_eq_true,
        decide_eq_true_eq, Bool.or_eq_true, Bool.not_eq_true', ne_eq, not_true_eq_false,
        false_or, Nat.add_zero] at cl bl nl hh
      refine ⟨node k v RED (node lk lv BLACK ll lr) (node rk rv BLACK rl rr),
        by simp [fix_red_edge], by simp [crl, crr, cl], ?_, by simp, ?_, by simp⟩
      · simp [brl, brr, bl]; omega
      · simp [nrl, nrr, nl]
    · simp only [Bool.not_eq_true] at hl
      by_cases hrl : red_node rl = true
      · obtain ⟨k1, v1, a, b, rfl⟩ := red_node_eq hrl
        have hrr : red_node rr = false := by
          cases h : red_node rr
          · rfl
          · simp [h] at hx
        simp only [clean, balanced, no_red_red, wbh, weight_RED, Bool.and_eq_true,
          decide_eq_true_eq, Bool.or_eq_true, Bool.not_eq_true', ne_eq, not_true_eq_false,
          false_or, Nat.add_zero] at crl brl nrl hw hh
        obtain ⟨⟨hw2, ba⟩, bb⟩ := brl
        refine ⟨node k1 v1 BLACK (node k v RED l a) (node rk rv RED b rr),
          by simp [fix_red_edge, il, hl, l1, l2], by simp [crl, crr, cl], ?_, by simp,
          ?_, by simp⟩
        · simp [ba, bb, brr, bl]; omega
        · simp [nrl, nrr, nl, hrr, hl]
      · simp only [Bool.not_eq_true] at hrl
        by_cases hrr : red_node rr = true
        · obtain ⟨k1, v1, a, b, rfl⟩ := red_node_eq hrr
          simp only [clean, balanced, no_red_red, wbh, weight_RED, Bool.and_eq_true,
            decide_eq_true_eq, Bool.or_eq_true, Bool.not_eq_true', ne_eq, not_true_eq_false,
            false_or, Nat.add_zero] at crr brr nrr hw
          obtain ⟨⟨hw2, ba⟩, bb⟩ := brr
          refine ⟨node rk rv BLACK (node k v RED l rl) (node k1 v1 RED a b),
            by simp [fix_red_edge, il, hl, l1, l2, irl, hrl], by simp [crl, crr, cl], ?_,
            by simp, ?_, by simp⟩
          · simp [brl, ba, bb, bl]; omega
          · simp [nrl, nrr, nl, hrl, hl]
        · simp only [Bool.not_eq_true] at hrr
          refine ⟨node k v BLACK l (node rk rv RED rl rr),
            by simp [fix_red_edge, il, hl, l1, l2, irl, hrl, irr, hrr],
            by simp [crl, crr, cl], ?_, by simp, ?_, by simp⟩
          · simp [brl, brr, bl]; omega
          · simp [nrl, nrr, nl, hrl, hrr]
  · simp only [Bool.not_eq_true] at hr
    have ir := is_red_of_clean cr
    have r1 : red_with_red_left r = false := by
      cases r <;> simp_all
    have r2 : red_with_red_right r = false := by
      cases r <;> simp_all
    have nr : no_red_red r = true := by
      cases r <;> simp_all
    refine ⟨node k v BLACK l r, by simp [fix_red_edge, il, ir, hr, l1, l2, r1, r2],
      by simp [cl, cr], by simp [bl, br, hh], by simp, by simp [nl, nr], rfl⟩

/-- Without a red-red edge at or next to the children and without two red children,
`fix_red_edge` changes nothing. -/
theorem fix_red_edge_noop {k : K} {v : V} {c : Color} {l r : Node K V}
    (cl : clean l = true) (cr : clean r = true)
    (nl : no_red_red l = true) (nr : no_red_red r = true)
    (h : (red_node l && red_node r) = false) :
    fix_red_edge (node k v c l r) = some (node k v c l r) := by
  have l1 := red_with_red_left_false cl nl
  have l2 := red_with_red_right_false cl nl
  have r1 := red_with_red_left_false cr nr
  have r2 := red_with_red_right_false cr nr
  have il := is_red_of_clean cl
  have ir := is_red_of_clean cr
  simp_all [fix_red_edge]

/-! ## Ordering and `insert_helper` -/

theorem keys_node (k : K) (v : V) (c : Color) (l r : Node K V) :
    keys (node k v c l r) = keys l ++ k :: keys r := by
  simp [keys]

theorem mem_keys {t : Node K V} {x : K} : x ∈ keys t ↔ ∃ v, (x, v) ∈ toList t := by
  simp [keys]

theorem almost_of_no_red_red {t : Node K V} (h : no_red_red t = true) : almost t = true := by
  cases t with
  | nil => rfl
  | doubleBlackNilNode => rfl
  | node k v c l r =>
    simp only [no_red_red, Bool.and_eq_true, Bool.or_eq_true, decide_eq_true_eq,
      Bool.not_eq_true'] at h
    simp only [almost_node, Bool.and_eq_true, Bool.or_eq_true, decide_eq_true_eq,
      Bool.not_eq_true', Bool.and_eq_false_imp]
    refine ⟨⟨h.1.2, h.2⟩, ?_⟩
    rcases h.1.1 with h1 | h1
    · exact Or.inl h1
    · exact Or.inr (fun hl => by simp [h1.1] at hl)

theorem is_null_of_wbh {t : Node K V} {n : Nat} (h : wbh t = n + 1) : is_null t = false := by
  cases t <;> simp_all

section
variable [LinearOrder K]

theorem ordered_iff_pairwise (t : Node K V) :
    ordered t = true ↔ (keys t).Pairwise (· < ·) := by
  induction t with
  | nil => simp [ordered, keys]
  | doubleBlackNilNode => simp [ordered, keys]
  | node k v c l r ihl ihr =>
    rw [keys_node, List.pairwise_append, List.pairwise_cons]
    simp only [ordered, Bool.and_eq_true, List.all_eq_true, decide_eq_true_eq, ihl, ihr,
      List.mem_cons]
    constructor
    · rintro ⟨⟨⟨h1, h2⟩, h3⟩, h4⟩
      refine ⟨h3, ⟨h2, h4⟩, ?_⟩
      rintro a ha b (rfl | hb)
      · exact h1 a ha
      · exact lt_trans (h1 a ha) (h2 b hb)
    · rintro ⟨h3, ⟨h2, h4⟩, h5⟩
      exact ⟨⟨⟨fun a ha => h5 a ha k (Or.inl rfl), h2⟩, h3⟩, h4⟩

theorem ordered_congr {a b : Node K V} (h : toList a = toList b) : ordered a = ordered b := by
  have h1 := ordered_iff_pairwise a
  have h2 := ordered_iff_pairwise b
  have hk : keys a = keys b := by simp [keys, h]
  rw [hk] at h1
  cases ha : ordered a <;> cases hb : ordered b <;> simp_all

theorem ordered_node {key : K} {val : V} {c : Color} {l r : Node K V} :
    ordered (node key val c l r) = true ↔
      (∀ p ∈ toList l, p.1 < key) ∧ (∀ p ∈ toList r, key < p.1) ∧
        ordered l = true ∧ ordered r = true := by
  simp only [ordered, keys, Bool.and_eq_true, List.all_eq_true, decide_eq_true_eq,
    List.mem_map, forall_exists_index, and_imp, forall_apply_eq_imp_iff₂]
  tauto

theorem insert_left_ordered {k key : K} {v val : V} {c : Color} {l r l1 t1 : Node K V}
    (ho : ordered (node key val c l r) = true) (hk : k < key) (ho1 : ordered l1 = true)
    (hm : ∀ p, p ∈ toList l1 ↔ p = (k, v) ∨ (p.1 ≠ k ∧ p ∈ toList l))
    (ht : toList t1 = toList (node key val c l1 r)) :
    ordered t1 = true ∧
      ∀ p, p ∈ toList t1 ↔ p = (k, v) ∨ (p.1 ≠ k ∧ p ∈ toList (node key val c l r)) := by
  obtain ⟨h1, h2, h3, h4⟩ := ordered_node.1 ho
  constructor
  · rw [ordered_congr ht, ordered_node]
    refine ⟨?_, h2, ho1, h4⟩
    intro p hp
    rcases (hm p).1 hp with rfl | ⟨_, hp⟩
    · exact hk
    · exact h1 p hp
  · intro p
    simp only [ht, toList, List.mem_append, List.mem_cons, hm]
    constructor
    · rintro ((rfl | ⟨h, hp⟩) | rfl | hp)
      · exact Or.inl rfl
      · exact Or.inr ⟨h, Or.inl hp⟩
      · exact Or.inr ⟨ne_of_gt hk, Or.inr (Or.inl rfl)⟩
      · exact Or.inr ⟨ne_of_gt (lt_trans hk (h2 p hp)), Or.inr (Or.inr hp)⟩
    · rintro (rfl | ⟨h, hp | rfl | hp⟩)
      · exact Or.inl (Or.inl rfl)
      · exact Or.inl (Or.inr ⟨h, hp⟩)
      · exact Or.inr (Or.inl rfl)
      · exact Or.inr (Or.inr hp)

theorem insert_right_ordered {k key : K} {v val : V} {c : Color} {l r r1 t1 : Node K V}
    (ho : ordered (node key val c l r) = true) (hk : key < k) (ho1 : ordered r1 = true)
    (hm : ∀ p, p ∈ toList r1 ↔ p = (k, v) ∨ (p.1 ≠ k ∧ p ∈ toList r))
    (ht : toList t1 = toList (node key val c l r1)) :
    ordered t1 = true ∧
      ∀ p, p ∈ toList t1 ↔ p = (k, v) ∨ (p.1 ≠ k ∧ p ∈ toList (node key val c l r)) := by
  obtain ⟨h1, h2, h3, h4⟩ := ordered_node.1 ho
  constructor
  · rw [ordered_congr ht, ordered_node]
    refine ⟨h1, ?_, h3, ho1⟩
    intro p hp
    rcases (hm p).1 hp with rfl | ⟨_, hp⟩
    · exact hk
    · exact h2 p hp
  · intro p
    simp only [ht, toList, List.mem_append, List.mem_cons, hm]
    constructor
    · rintro (hp | rfl | rfl | ⟨h, hp⟩)
      · exact Or.inr ⟨ne_of_lt (lt_trans (h1 p hp) hk), Or.inl hp⟩
      · exact Or.inr ⟨ne_of_lt hk, Or.inr (Or.inl rfl)⟩
      · exact Or.inl rfl
      · exact Or.inr ⟨h, Or.inr (Or.inr hp)⟩
    · rintro (rfl | ⟨h, hp | rfl | hp⟩)
      · exact Or.inr (Or.inr (Or.inl rfl))
      · exact Or.inl hp
      · exact Or.inr (Or.inl rfl)
      · exact Or.inr (Or.inr (Or.inr ⟨h, hp⟩))

theorem insert_here_ordered {k : K} {v val : V} {c : Color} {l r : Node K V}
    (ho : ordered (node k val c l r) = true) :
    ordered (node k v c l r) = true ∧
      ∀ p, p ∈ toList (node k v c l r) ↔
        p = (k, v) ∨ (p.1 ≠ k ∧ p ∈ toList (node k val c l r)) := by
  obtain ⟨h1, h2, h3, h4⟩ := ordered_node.1 ho
  refine ⟨ordered_node.2 ⟨h1, h2, h3, h4⟩, ?_⟩
  intro p
  simp only [toList, List.mem_append, List.mem_cons]
  constructor
  · rintro (hp | rfl | hp)
    · exact Or.inr ⟨ne_of_lt (h1 p hp), Or.inl hp⟩
    · exact Or.inl rfl
    · exact Or.inr ⟨ne_of_gt (h2 p hp), Or.inr (Or.inr hp)⟩
  · rintro (rfl | ⟨h, hp | rfl | hp⟩)
    · exact Or.inr (Or.inl rfl)
    · exact Or.inl hp
    · exact absurd rfl h
    · exact Or.inr (Or.inr hp)

/-- What `insert_helper` guarantees on a clean, balanced subtree without red-red edges. -/
theorem insert_helper_inv (k : K) (v : V) (t : Node K V) :
    clean t = true → balanced t = true → no_red_red t = true →
    ∃ t1, insert_helper t k v = some t1 ∧ clean t1 = true ∧ balanced t1 = true ∧
      wbh t1 = wbh t ∧ almost t1 = true ∧ (red_node t = false → no_red_red t1 = true) ∧
      is_null t1 = false ∧
      (ordered t = true → ordered t1 = true ∧
        ∀ p, p ∈ toList t1 ↔ p = (k, v) ∨ (p.1 ≠ k ∧ p ∈ toList t)) := by
  induction t with
  | nil => intro _ _ _; simp [insert_helper, ordered, keys]
  | doubleBlackNilNode => intro h; simp at h
  | node key val c l r ihl ihr =>
    intro hc hb hn
    simp only [clean, balanced, no_red_red, Bool.and_eq_true, decide_eq_true_eq,
      Bool.or_eq_true, Bool.not_eq_true', ne_eq] at hc hb hn
    obtain ⟨⟨hc0, hcl⟩, hcr⟩ := hc
    obtain ⟨⟨hw, hbl⟩, hbr⟩ := hb
    obtain ⟨⟨hn0, hnl⟩, hnr⟩ := hn
    obtain ⟨l1, el, cl1, bl1, wl1, al1, nl1, nn1, ol1⟩ := ihl hcl hbl hnl
    obtain ⟨r1, er, cr1, br1, wr1, ar1, nr1, nn2, or1⟩ := ihr hcr hbr hnr
    clear ihl ihr
    by_cases hk : key = k
    · subst hk
      refine ⟨node key v c l r, by simp [insert_helper], by simp [*], by simp [*], rfl,
        ?_, ?_, rfl, insert_here_ordered⟩
      · simp [*]; tauto
      · cases c <;> simp_all
    · by_cases hlt : k < key
      · have e1 : insert_helper (node key val c l r) k v = fix_red_edge (node key val c l1 r) := by
          simp [insert_helper, hk, hlt, el]
        have hord : ∀ t1, toList t1 = toList (node key val c l1 r) →
            ordered (node key val c l r) = true → ordered t1 = true ∧
            ∀ p, p ∈ toList t1 ↔ p = (k, v) ∨ (p.1 ≠ k ∧ p ∈ toList (node key val c l r)) := by
          intro t1 ht ho
          obtain ⟨o1, m1⟩ := ol1 (ordered_node.1 ho).2.2.1
          exact insert_left_ordered ho hlt o1 m1 ht
        rw [e1]
        cases c with
        | DOUBLE_BLACK => exact absurd rfl hc0
        | BLACK =>
          obtain ⟨t1, h1, h2, h3, h4, h5, h6⟩ :=
            fix_red_edge_left (k := key) (v := val) cl1 hcr bl1 hbr (by omega) al1 hnr
          exact ⟨t1, h1, h2, h3, by simp; omega, almost_of_no_red_red h5, fun _ => h5,
            is_null_of_wbh h4, hord t1 h6⟩
        | RED =>
          simp only [not_true_eq_false, false_or] at hn0
          have n1 := nl1 hn0.1
          rw [fix_red_edge_noop cl1 hcr n1 hnr (by simp [hn0.2])]
          refine ⟨_, rfl, by simp [*], by simp [*], by simp [*], by simp [*], by simp,
            rfl, hord _ rfl⟩
      · have hgt : key < k := lt_of_le_of_ne (not_lt.1 hlt) hk
        have e1 : insert_helper (node key val c l r) k v = fix_red_edge (node key val c l r1) := by
          simp [insert_helper, hk, hlt, er]
        have hord : ∀ t1, toList t1 = toList (node key val c l r1) →
            ordered (node key val c l r) = true → ordered t1 = true ∧
            ∀ p, p ∈ toList t1 ↔ p = (k, v) ∨ (p.1 ≠ k ∧ p ∈ toList (node key val c l r)) := by
          intro t1 ht ho
          obtain ⟨o1, m1⟩ := or1 (ordered_node.1 ho).2.2.2
          exact insert_right_ordered ho hgt o1 m1 ht
        rw [e1]
        cases c with
        | DOUBLE_BLACK => exact absurd rfl hc0
        | BLACK =>
          obtain ⟨t1, h1, h2, h3, h4, h5, h6⟩ :=
            fix_red_edge_right (k := key) (v := val) hcl cr1 hbl br1 (by omega) hnl ar1
          exact ⟨t1, h1, h2, h3, by simp; omega, almost_of_no_red_red h5, fun _ => h5,
            is_null_of_wbh h4, hord t1 h6⟩
        | RED =>
          simp only [not_true_eq_false, false_or] at hn0
          have n1 := nr1 hn0.2
          rw [fix_red_edge_noop hcl cr1 hnl n1 (by simp [hn0.1])]
          refine ⟨_, rfl, by simp [*], by simp [*], by simp [*], by simp [*], by simp,
            rfl, hord _ rfl⟩

end

/-! ## Double-black repair, deficiency on the left -/

/-- The shapes of a deficient subtree handed back by a removal. -/
theorem deficient_cases {t : Node K V} (hs : semi_clean t = true)
    (hd : is_double_black t = true) :
    t = doubleBlackNilNode ∨
      ∃ k v l r, t = node k v DOUBLE_BLACK l r ∧ clean l = true ∧ clean r = true := by
  cases t with
  | nil => simp at hd
  | doubleBlackNilNode => exact Or.inl rfl
  | node k v c l r =>
    simp at hd hs
    exact Or.inr ⟨k, v, l, r, by rw [hd], hs.1, hs.2⟩

theorem clean_of_semi_clean {t : Node K V} (hs : semi_clean t = true)
    (hd : is_double_black t = false) : clean t = true := by
  cases t <;> simp_all

/-- A clean subtree of positive black-height that is not red is a black node. -/
theorem black_node_of_wbh {t : Node K V} (hc : clean t = true) (hr : red_node t = false)
    (hw : 0 < wbh t) : ∃ k v l r, t = node k v BLACK l r := by
  cases t with
  | nil => simp at hw
  | doubleBlackNilNode => simp at hc
  | node k v c l r => cases c <;> simp_all

/-- What `pull_black` does to a deficient child handed back by a removal. -/
theorem pull_child_deficient {t : Node K V} (hs : semi_clean t = true)
    (hd : is_double_black t = true) (hb : balanced t = true) (hn : no_red_red t = true) :
    ∃ t1, pull_child t = some t1 ∧ clean t1 = true ∧ balanced t1 = true ∧
      wbh t = wbh t1 + 1 ∧ no_red_red t1 = true ∧ red_node t1 = false ∧
      toList t1 = toList t := by
  cases t with
  | nil => simp at hd
  | doubleBlackNilNode => exact ⟨nil, rfl, rfl, rfl, rfl, rfl, rfl, rfl⟩
  | node k v c l r =>
    simp only [is_double_black_node, decide_eq_true_eq] at hd
    subst hd
    refine ⟨node k v BLACK l r, rfl, ?_, ?_, rfl, ?_, rfl, rfl⟩
    · simpa using hs
    · simpa using hb
    · simpa using hn

theorem fix_left_doubleblack_right_black_inv {k : K} {v : V} {c : Color} {l r : Node K V}
    (hc : c ≠ DOUBLE_BLACK)
    (sl : semi_clean l = true) (dl : is_double_black l = true) (cr : clean r = true)
    (hr : red_node r = false)
    (bl : balanced l = true) (br : balanced r = true) (hw : wbh l = wbh r)
    (nl : no_red_red l = true) (nr : no_red_red r = true) :
    ∃ t, fix_left_doubleblack_right_black (node k v c l r) = some t ∧ semi_clean t = true ∧
      balanced t = true ∧ wbh t = wbh l + c.weight ∧ no_red_red t = true ∧
      (red_node t = true → c = RED) ∧ (c = RED → clean t = true) ∧
      toList t = toList (node k v c l r) := by
  obtain ⟨l1, pl, cl1, bl1, wl1, nl1, rl1, tl1⟩ := pull_child_deficient sl dl bl nl
  obtain ⟨rk, rv, rl, rr, rfl⟩ := black_node_of_wbh cr hr (by omega)
  rw [wl1, toList, ← tl1]
  rw [wl1] at hw
  clear sl bl nl tl1 hr wl1
  simp only [clean, balanced, no_red_red, wbh, weight_BLACK, Bool.and_eq_true,
    decide_eq_true_eq, Bool.or_eq_true, Bool.not_eq_true', ne_eq] at cr br nr hw
  obtain ⟨⟨-, crl⟩, crr⟩ := cr
  obtain ⟨⟨hw1, brl⟩, brr⟩ := br
  obtain ⟨⟨-, nrl⟩, nrr⟩ := nr
  have i1 := is_red_of_clean crl
  by_cases h2 : red_node rr = true
  · obtain ⟨k2, v2, a, b, rfl⟩ := red_node_eq h2
    simp only [clean, balanced, no_red_red, wbh, weight_RED, Bool.and_eq_true,
      decide_eq_true_eq, Bool.or_eq_true, Bool.not_eq_true', ne_eq, not_true_eq_false,
      false_or, Nat.add_zero] at crr brr nrr hw1
    refine ⟨node rk rv c (node k v BLACK l1 rl) (node k2 v2 BLACK a b), ?_, ?_, ?_, ?_, ?_,
      ?_, ?_, ?_⟩
    · cases c
      · simp [fix_left_doubleblack_right_black, dl, pl]
      · simp [fix_left_doubleblack_right_black, dl, pl]
      · exact absurd rfl hc
    · simp [cl1, crl, crr]
    · simp [bl1, brl, brr]; omega
    · simp
    · simp [nl1, nrl, nrr]
    · simp
    · intro h; simp [h, cl1, crl, crr]
    · simp
  · have i2 := is_red_of_clean crr
    have i3 := is_black_of_clean crr
    simp only [Bool.not_eq_true] at h2
    by_cases h1 : red_node rl = true
    · obtain ⟨k1, v1, a, b, rfl⟩ := red_node_eq h1
      simp only [clean, balanced, no_red_red, wbh, weight_RED, Bool.and_eq_true,
        decide_eq_true_eq, Bool.or_eq_true, Bool.not_eq_true', ne_eq, not_true_eq_false,
        false_or, Nat.add_zero] at crl brl nrl hw1 hw
      refine ⟨node k1 v1 c (node k v BLACK l1 a) (node rk rv BLACK b rr), ?_, ?_, ?_, ?_, ?_,
        ?_, ?_, ?_⟩
      · cases c
        · simp [fix_left_doubleblack_right_black, dl, pl, i3, h2]
        · simp [fix_left_doubleblack_right_black, dl, pl, i3, h2]
        · exact absurd rfl hc
      · simp [cl1, crl, crr]
      · simp [bl1, brl, brr]; omega
      · simp
      · simp [nl1, nrl, nrr]
      · simp
      · intro h; simp [h, cl1, crl, crr]
      · simp
    · simp only [Bool.not_eq_true] at h1
      cases c
      · refine ⟨node k v BLACK l1 (node rk rv RED rl rr), ?_, ?_, ?_, ?_, ?_, ?_, ?_, ?_⟩
        · simp [fix_left_doubleblack_right_black, dl, pl, i1, i2, h1, h2]
        · simp [cl1, crl, crr]
        · simp [bl1, brl, brr]; omega
        · simp
        · simp [nl1, nrl, nrr, h1, h2]
        · simp
        · intro _; simp [cl1, crl, crr]
        · simp
      · refine ⟨node k v DOUBLE_BLACK l1 (node rk rv RED rl rr), ?_, ?_, ?_, ?_, ?_, ?_, ?_, ?_⟩
        · simp [fix_left_doubleblack_right_black, dl, pl, i1, i2, h1, h2]
        · simp [cl1, crl, crr]
        · simp [bl1, brl, brr]; omega
        · simp
        · simp [nl1, nrl, nrr, h1, h2]
        · simp
        · intro h; simp at h
        · simp
      · exact absurd rfl hc

theorem fix_left_doubleblack_inv {k : K} {v : V} {c : Color} {l r : Node K V}
    (hc : c ≠ DOUBLE_BLACK)
    (sl : semi_clean l = true) (dl : is_double_black l = true) (cr : clean r = true)
    (hr : c = RED → red_node r = false)
    (bl : balanced l = true) (br : balanced r = true) (hw : wbh l = wbh r)
    (nl : no_red_red l = true) (nr : no_red_red r = true) :
    ∃ t, fix_left_doubleblack (node k v c l r) = some t ∧ semi_clean t = true ∧
      balanced t = true ∧ wbh t = wbh l + c.weight ∧ no_red_red t = true ∧
      (red_node t = true → c = RED) ∧ (c = RED → clean t = true) ∧
      toList t = toList (node k v c l r) := by
  by_cases h : red_node r = true
  · obtain ⟨rk, rv, rl, rr, rfl⟩ := red_node_eq h
    have hcb : c = BLACK := by
      cases c
      · simp at hr
      · rfl
      · exact absurd rfl hc
    subst hcb
    simp only [clean, balanced, no_red_red, Bool.and_eq_true, decide_eq_true_eq,
      Bool.or_eq_true, Bool.not_eq_true', ne_eq, not_true_eq_false, false_or, wbh,
      weight_RED, Nat.add_zero] at cr br nr hw
    obtain ⟨t, h1, h2, h3, h4, h5, h6, h7, h8⟩ :=
      fix_left_doubleblack_right_black_inv (k := k) (v := v) (c := RED) (by simp) sl dl
        cr.1.2 nr.1.1.1 bl br.1.2 (by omega) nl nr.1.2
    refine ⟨node rk rv BLACK t rr, ?_, ?_, ?_, ?_, ?_, ?_, ?_, ?_⟩
    · simp [fix_left_doubleblack, dl, h1]
    · simp [h7 rfl, cr.2]
    · simp [h3, br.2]; simp at h4; omega
    · simp at h4; simp; omega
    · simp [h5, nr.2]
    · simp
    · simp
    · simp [h8]
  · have e : fix_left_doubleblack (node k v c l r) =
        fix_left_doubleblack_right_black (node k v c l r) := by
      simp [fix_left_doubleblack, dl, is_red_of_clean cr, h]
    rw [e]
    exact fix_left_doubleblack_right_black_inv hc sl dl cr (by simpa using h) bl br hw nl nr

/-! ## Double-black repair, deficiency on the right -/

theorem fix_right_doubleblack_left_black_inv {k : K} {v : V} {c : Color} {l r : Node K V}
    (hc : c ≠ DOUBLE_BLACK)
    (sr : semi_clean r = true) (dr : is_double_black r = true) (cl : clean l = true)
    (hl : red_node l = false)
    (bl : balanced l = true) (br : balanced r = true) (hw : wbh l = wbh r)
    (nl : no_red_red l = true) (nr : no_red_red r = true) :
    ∃ t, fix_right_doubleblack_left_black (node k v c l r) = some t ∧ semi_clean t = true ∧
      balanced t = true ∧ wbh t = wbh r + c.weight ∧ no_red_red t = true ∧
      (red_node t = true → c = RED) ∧ (c = RED → clean t = true) ∧
      toList t = toList (node k v c l r) := by
  obtain ⟨r1, pr, cr1, br1, wr1, nr1, rr1, tr1⟩ := pull_child_deficient sr dr br nr
  obtain ⟨lk, lv, ll, lr, rfl⟩ := black_node_of_wbh cl hl (by omega)
  rw [wr1, toList, ← tr1]
  rw [wr1] at hw
  clear sr br nr tr1 hl wr1
  simp only [clean, balanced, no_red_red, wbh, weight_BLACK, Bool.and_eq_true,
    decide_eq_true_eq, Bool.or_eq_true, Bool.not_eq_true', ne_eq] at cl bl nl hw
  obtain ⟨⟨-, cll⟩, clr⟩ := cl
  obtain ⟨⟨hw1, bll⟩, blr⟩ := bl
  obtain ⟨⟨-, nll⟩, nlr⟩ := nl
  have i1 := is_red_of_clean clr
  by_cases h2 : red_node ll = true
  · obtain ⟨k2, v2, a, b, rfl⟩ := red_node_eq h2
    simp only [clean, balanced, no_red_red, wbh, weight_RED, Bool.and_eq_true,
      decide_eq_true_eq, Bool.or_eq_true, Bool.not_eq_true', ne_eq, not_true_eq_false,
      false_or, Nat.add_zero] at cll bll nll hw1 hw
    refine ⟨node lk lv c (node k2 v2 BLACK a b) (node k v BLACK lr r1), ?_, ?_, ?_, ?_, ?_,
      ?_, ?_, ?_⟩
    · cases c
      · simp [fix_right_doubleblack_left_black, dr, pr]
      · simp [fix_right_doubleblack_left_black, dr, pr]
      · exact absurd rfl hc
    · simp [cr1, cll, clr]
    · simp [br1, bll, blr]; omega
    · simp; omega
    · simp [nr1, nll, nlr]
    · simp
    · intro h; simp [h, cr1, cll, clr]
    · simp
  · have i2 := is_red_of_clean cll
    have i3 := is_black_of_clean cll
    simp only [Bool.not_eq_true] at h2
    by_cases h1 : red_node lr = true
    · obtain ⟨k1, v1, a, b, rfl⟩ := red_node_eq h1
      simp only [clean, balanced, no_red_red, wbh, weight_RED, Bool.and_eq_true,
        decide_eq_true_eq, Bool.or_eq_true, Bool.not_eq_true', ne_eq, not_true_eq_false,
        false_or, Nat.add_zero] at clr blr nlr hw1
      refine ⟨node k1 v1 c (node lk lv BLACK ll a) (node k v BLACK b r1), ?_, ?_, ?_, ?_, ?_,
        ?_, ?_, ?_⟩
      · cases c
        · simp [fix_right_doubleblack_left_black, dr, pr, i3, h2]
        · simp [fix_right_doubleblack_left_black, dr, pr, i3, h2]
        · exact absurd rfl hc
      · simp [cr1, cll, clr]
      · simp [br1, bll, blr]; omega
      · simp; omega
      · simp [nr1, nll, nlr]
      · simp
      · intro h; simp [h, cr1, cll, clr]
      · simp
    · simp only [Bool.not_eq_true] at h1
      cases c
      · refine ⟨node k v BLACK (node lk lv RED ll lr) r1, ?_, ?_, ?_, ?_, ?_, ?_, ?_, ?_⟩
        · simp [fix_right_doubleblack_left_black, dr, pr, i1, i2, h1, h2]
        · simp [cr1, cll, clr]
        · simp [br1, bll, blr]; omega
        · simp; omega
        · simp [nr1, nll, nlr, h1, h2]
        · simp
        · intro _; simp [cr1, cll, clr]
        · simp
      · refine ⟨node k v DOUBLE_BLACK (node lk lv RED ll lr) r1, ?_, ?_, ?_, ?_, ?_, ?_, ?_,
          ?_⟩
        · simp [fix_right_doubleblack_left_black, dr, pr, i1, i2, h1, h2]
        · simp [cr1, cll, clr]
        · simp [br1, bll, blr]; omega
        · simp; omega
        · simp [nr1, nll, nlr, h1, h2]
        · simp
        · intro h; simp at h
        · simp
      · exact absurd rfl hc

theorem fix_right_doubleblack_inv {k : K} {v : V} {c : Color} {l r : Node K V}
    (hc : c ≠ DOUBLE_BLACK)
    (sr : semi_clean r = true) (dr : is_double_black r = true) (cl : clean l = true)
    (hl : c = RED → red_node l = false)
    (bl : balanced l = true) (br : balanced r = true) (hw : wbh l = wbh r)
    (nl : no_red_red l = true) (nr : no_red_red r = true) :
    ∃ t, fix_right_doubleblack (node k v c l r) = some t ∧ semi_clean t = true ∧
      balanced t = true ∧ wbh t = wbh r + c.weight ∧ no_red_red t = true ∧
      (red_node t = true → c = RED) ∧ (c = RED → clean t = true) ∧
      toList t = toList (node k v c l r) := by
  by_cases h : red_node l = true
  · obtain ⟨lk, lv, ll, lr, rfl⟩ := red_node_eq h
    have hcb : c = BLACK := by
      cases c
      · simp at hl
      · rfl
      · exact absurd rfl hc
    subst hcb
    simp only [clean, balanced, no_red_red, Bool.and_eq_true, decide_eq_true_eq,
      Bool.or_eq_true, Bool.not_eq_true', ne_eq, not_true_eq_false, false_or, wbh,
      weight_RED, Nat.add_zero] at cl bl nl hw
    obtain ⟨t, h1, h2, h3, h4, h5, h6, h7, h8⟩ :=
      fix_right_doubleblack_left_black_inv (k := k) (v := v) (c := RED) (by simp) sr dr
        cl.2 nl.1.1.2 bl.2 br (by omega) nl.2 nr
    refine ⟨node lk lv BLACK ll t, ?_, ?_, ?_, ?_, ?_, ?_, ?_, ?_⟩
    · simp [fix_right_doubleblack, dr, h1]
    · simp [h7 rfl, cl.1.2]
    · simp [h3, bl.1.2]; simp at h4; omega
    · simp at h4; simp; omega
    · simp [h5, nl.1.2]
    · simp
    · simp
    · simp [h8]
  · have e : fix_right_doubleblack (node k v c l r) =
        fix_right_doubleblack_left_black (node k v c l r) := by
      simp [fix_right_doubleblack, dr, is_red_of_clean cl, h]
    rw [e]
    exact fix_right_doubleblack_left_black_inv hc sr dr cl (by simpa using h) bl br hw nl nr

/-! ## `fix_doubleblack` and `splice` -/

theorem fix_doubleblack_left {k : K} {v : V} {c : Color} {l r : Node K V}
    (hc : c ≠ DOUBLE_BLACK) (sl : semi_clean l = true) (cr : clean r = true)
    (hcol : c = RED → red_node l = false ∧ red_node r = false)
    (bl : balanced l = true) (br : balanced r = true) (hw : wbh l = wbh r)
    (nl : no_red_red l = true) (nr : no_red_red r = true) :
    ∃ t, fix_doubleblack (node k v c l r) = some t ∧ semi_clean t = true ∧
      balanced t = true ∧ wbh t = wbh l + c.weight ∧ no_red_red t = true ∧
      (red_node t = true → c = RED) ∧ (c = RED → clean t = true) ∧
      toList t = toList (node k v c l r) := by
  by_cases dl : is_double_black l = true
  · have e : fix_doubleblack (node k v c l r) = fix_left_doubleblack (node k v c l r) := by
      simp [fix_doubleblack, dl]
    rw [e]
    exact fix_left_doubleblack_inv hc sl dl cr (fun h => (hcol h).2) bl br hw nl nr
  · have cl := clean_of_semi_clean sl (by simpa using dl)
    have dr := is_double_black_of_clean cr
    refine ⟨node k v c l r, by simp [fix_doubleblack, dl, dr], by simp [cl, cr],
      by simp [bl, br, hw], rfl, ?_, by simp, ?_, rfl⟩
    · simp only [no_red_red, nl, nr, Bool.and_true, Bool.or_eq_true, decide_eq_true_eq,
        Bool.and_eq_true, Bool.not_eq_true']
      by_cases h : c = RED
      · exact Or.inr (hcol h)
      · exact Or.inl h
    · intro _; simp [cl, cr, hc]

theorem fix_doubleblack_right {k : K} {v : V} {c : Color} {l r : Node K V}
    (hc : c ≠ DOUBLE_BLACK) (cl : clean l = true) (sr : semi_clean r = true)
    (hcol : c = RED → red_node l = false ∧ red_node r = false)
    (bl : balanced l = true) (br : balanced r = true) (hw : wbh l = wbh r)
    (nl : no_red_red l = true) (nr : no_red_red r = true) :
    ∃ t, fix_doubleblack (node k v c l r) = some t ∧ semi_clean t = true ∧
      balanced t = true ∧ wbh t = wbh l + c.weight ∧ no_red_red t = true ∧
      (red_node t = true → c = RED) ∧ (c = RED → clean t = true) ∧
      toList t = toList (node k v c l r) := by
  have dl := is_double_black_of_clean cl
  by_cases dr : is_double_black r = true
  · have e : fix_doubleblack (node k v c l r) = fix_right_doubleblack (node k v c l r) := by
      simp [fix_doubleblack, dl, dr]
    rw [e, hw]
    exact fix_right_doubleblack_inv hc sr dr cl (fun h => (hcol h).1) bl br hw nl nr
  · have cr := clean_of_semi_clean sr (by simpa using dr)
    refine ⟨node k v c l r, by simp [fix_doubleblack, dl, dr], by simp [cl, cr],
      by simp [bl, br, hw], rfl, ?_, by simp, ?_, rfl⟩
    · simp only [no_red_red, nl, nr, Bool.and_true, Bool.or_eq_true, decide_eq_true_eq,
        Bool.and_eq_true, Bool.not_eq_true']
      by_cases h : c = RED
      · exact Or.inr (hcol h)
      · exact Or.inl h
    · intro _; simp [cl, cr, hc]

/-- A clean subtree of black-height zero is empty or a red node. -/
theorem zero_wbh_cases {t : Node K V} (hc : clean t = true) (hw : wbh t = 0) :
    t = nil ∨ ∃ k v l r, t = node k v RED l r := by
  cases t with
  | nil => exact Or.inl rfl
  | doubleBlackNilNode => simp at hc
  | node k v c l r =>
    cases c
    · exact Or.inr ⟨k, v, l, r, rfl⟩
    · simp at hw
    · simp at hw

/-- What `splice` guarantees on a node with an empty child. -/
theorem splice_inv {k : K} {v : V} {c : Color} {l r : Node K V}
    (hc : clean (node k v c l r) = true) (hb : balanced (node k v c l r) = true)
    (hn : no_red_red (node k v c l r) = true) (h0 : (is_null r || is_null l) = true) :
    ∃ t, splice (node k v c l r) = some t ∧ semi_clean t = true ∧
      balanced t = true ∧ wbh t = wbh l + c.weight ∧ no_red_red t = true ∧
      red_node t = false ∧ (c = RED → clean t = true) ∧
      toList t = toList l ++ toList r := by
  simp only [clean, balanced, no_red_red, Bool.and_eq_true, decide_eq_true_eq,
    Bool.or_eq_true, Bool.not_eq_true', ne_eq] at hc hb hn h0
  obtain ⟨⟨hc0, hcl⟩, hcr⟩ := hc
  obtain ⟨⟨hw, hbl⟩, hbr⟩ := hb
  obtain ⟨⟨hn0, hnl⟩, hnr⟩ := hn
  have hl0 : wbh l = 0 := by
    rcases h0 with h | h
    · cases r <;> simp_all
    · cases l <;> simp_all
  rcases zero_wbh_cases hcl hl0 with rfl | ⟨lk, lv, ll, lr, rfl⟩ <;>
    rcases zero_wbh_cases hcr (by omega) with rfl | ⟨rk, rv, rl, rr, rfl⟩ <;>
    cases c <;> simp_all [splice]

/-! ## `extract_min` and `remove_helper` -/

theorem is_null_of_clean {t : Node K V} (hc : clean t = true) (h : is_null t = true) :
    t = nil := by
  cases t <;> simp_all

theorem extract_min_inv (t : Node K V) :
    clean t = true → balanced t = true → no_red_red t = true → is_null t = false →
    ∃ t1 mk mv, extract_min t = some (t1, mk, mv) ∧ removal_result t t1 ∧
      toList t = (mk, mv) :: toList t1 := by
  induction t with
  | nil => intro _ _ _ h; simp at h
  | doubleBlackNilNode => intro h; simp at h
  | node key val c l r ihl _ =>
    intro hc hb hn _
    have hc1 := hc
    have hb1 := hb
    have hn1 := hn
    simp only [clean, balanced, no_red_red, Bool.and_eq_true, decide_eq_true_eq,
      Bool.or_eq_true, Bool.not_eq_true', ne_eq] at hc1 hb1 hn1
    obtain ⟨⟨hc0, hcl⟩, hcr⟩ := hc1
    obtain ⟨⟨hw, hbl⟩, hbr⟩ := hb1
    obtain ⟨⟨hn0, hnl⟩, hnr⟩ := hn1
    by_cases h0 : is_null l = true
    · obtain ⟨t, h1, h2, h3, h4, h5, h6, h7, h8⟩ := splice_inv hc hb hn (by simp [h0])
      have hl := is_null_of_clean hcl h0
      subst hl
      refine ⟨t, key, val, by simp [extract_min, h1], ⟨h2, h3, h4, h5, ?_, ?_⟩, ?_⟩
      · simp [h6]
      · simpa using h7
      · simp [h8]
    · obtain ⟨l1, mk, mv, e1, ⟨s1, b1, w1, n1, r1, c1⟩, m1⟩ :=
        ihl hcl hbl hnl (by simpa using h0)
      have hcol : c = RED → red_node l1 = false ∧ red_node r = false := by
        intro h
        subst h
        simp only [not_true_eq_false, false_or] at hn0
        refine ⟨?_, hn0.2⟩
        cases h : red_node l1
        · rfl
        · rw [r1 h] at hn0; simp at hn0
      obtain ⟨t, h1, h2, h3, h4, h5, h6, h7, h8⟩ :=
        fix_doubleblack_left (k := key) (v := val) hc0 s1 hcr hcol b1 hbr (by omega) n1 hnr
      refine ⟨t, mk, mv, by simp [extract_min, h0, e1, h1], ⟨h2, h3, ?_, h5, ?_, ?_⟩, ?_⟩
      · simp; omega
      · simpa using h6
      · simpa using h7
      · simp [h8, m1]

section
variable [LinearOrder K]

theorem filter_ne_of_lt {k : K} {xs : List (K × V)} (h : ∀ p ∈ xs, p.1 < k) :
    xs.filter (fun p => decide (p.1 ≠ k)) = xs :=
  List.filter_eq_self.2 fun p hp => by simpa using ne_of_lt (h p hp)

theorem filter_ne_of_gt {k : K} {xs : List (K × V)} (h : ∀ p ∈ xs, k < p.1) :
    xs.filter (fun p => decide (p.1 ≠ k)) = xs :=
  List.filter_eq_self.2 fun p hp => by simpa using ne_of_gt (h p hp)

/-- What `remove_helper` guarantees on a clean, balanced subtree without red-red edges. -/
theorem remove_helper_inv (k : K) (t : Node K V) :
    clean t = true → balanced t = true → no_red_red t = true →
    ∃ t1, remove_helper t k = some t1 ∧ removal_result t t1 ∧
      (ordered t = true → toList t1 = (toList t).filter (fun p => decide (p.1 ≠ k))) := by
  induction t with
  | nil =>
    intro _ _ _
    exact ⟨nil, rfl, ⟨rfl, rfl, rfl, rfl, id, fun h => by simp at h⟩, fun _ => rfl⟩
  | doubleBlackNilNode => intro h; simp at h
  | node key val c l r ihl ihr =>
    intro hc hb hn
    have hc1 := hc
    have hb1 := hb
    have hn1 := hn
    simp only [clean, balanced, no_red_red, Bool.and_eq_true, decide_eq_true_eq,
      Bool.or_eq_true, Bool.not_eq_true', ne_eq] at hc1 hb1 hn1
    obtain ⟨⟨hc0, hcl⟩, hcr⟩ := hc1
    obtain ⟨⟨hw, hbl⟩, hbr⟩ := hb1
    obtain ⟨⟨hn0, hnl⟩, hnr⟩ := hn1
    have hred : c = RED → red_node l = false ∧ red_node r = false := by
      intro h; simpa [h] using hn0
    have hcol : ∀ {a b : Node K V}, (red_node a = true → red_node b = true) →
        red_node b = false → red_node a = false := by
      intro a b h1 h2
      cases h : red_node a
      · rfl
      · rw [h1 h] at h2; exact h2
    by_cases hk : k = key
    · subst hk
      by_cases h0 : (is_null r || is_null l) = true
      · obtain ⟨t, h1, h2, h3, h4, h5, h6, h7, h8⟩ := splice_inv hc hb hn h0
        refine ⟨t, by simp [remove_helper, h0, h1], ⟨h2, h3, h4, h5, ?_, ?_⟩, ?_⟩
        · simp [h6]
        · simpa using h7
        · intro ho
          obtain ⟨o1, o2, _, _⟩ := ordered_node.1 ho
          rw [h8, toList, List.filter_append, List.filter_cons, filter_ne_of_lt o1,
            filter_ne_of_gt o2]
          simp
      · simp only [Bool.or_eq_true, not_or, Bool.not_eq_true] at h0
        obtain ⟨r1, mk, mv, e1, ⟨s1, b1, w1, n1, q1, c1⟩, m1⟩ :=
          extract_min_inv r hcr hbr hnr h0.1
        obtain ⟨t, h1, h2, h3, h4, h5, h6, h7, h8⟩ :=
          fix_doubleblack_right (k := mk) (v := mv) hc0 hcl s1
            (fun h => ⟨(hred h).1, hcol q1 (hred h).2⟩) hbl b1 (by omega) hnl n1
        refine ⟨t, by simp [remove_helper, h0, e1, h1], ⟨h2, h3, h4, h5, ?_, ?_⟩, ?_⟩
        · simpa using h6
        · simpa using h7
        · intro ho
          obtain ⟨o1, o2, _, _⟩ := ordered_node.1 ho
          rw [h8, toList, toList, List.filter_append, List.filter_cons, filter_ne_of_lt o1,
            filter_ne_of_gt o2, m1]
          simp
    · by_cases hlt : k < key
      · obtain ⟨l1, e1, ⟨s1, b1, w1, n1, q1, c1⟩, m1⟩ := ihl hcl hbl hnl
        obtain ⟨t, h1, h2, h3, h4, h5, h6, h7, h8⟩ :=
          fix_doubleblack_left (k := key) (v := val) hc0 s1 hcr
            (fun h => ⟨hcol q1 (hred h).1, (hred h).2⟩) b1 hbr (by omega) n1 hnr
        refine ⟨t, by simp [remove_helper, hk, hlt, e1, h1], ⟨h2, h3, ?_, h5, ?_, ?_⟩, ?_⟩
        · simp; omega
        · simpa using h6
        · simpa using h7
        · intro ho
          obtain ⟨o1, o2, o3, _⟩ := ordered_node.1 ho
          have : ∀ p ∈ (key, val) :: toList r, k < p.1 := by
            intro p hp
            rcases List.mem_cons.1 hp with rfl | hp
            · exact hlt
            · exact lt_trans hlt (o2 p hp)
          rw [h8, toList, toList, List.filter_append, filter_ne_of_gt this, m1 o3]
      · have hgt : key < k := lt_of_le_of_ne (not_lt.1 hlt) (Ne.symm hk)
        obtain ⟨r1, e1, ⟨s1, b1, w1, n1, q1, c1⟩, m1⟩ := ihr hcr hbr hnr
        obtain ⟨t, h1, h2, h3, h4, h5, h6, h7, h8⟩ :=
          fix_doubleblack_right (k := key) (v := val) hc0 hcl s1
            (fun h => ⟨(hred h).1, hcol q1 (hred h).2⟩) hbl b1 (by omega) hnl n1
        refine ⟨t, by simp [remove_helper, hk, hlt, e1, h1], ⟨h2, h3, h4, h5, ?_, ?_⟩, ?_⟩
        · simpa using h6
        · simpa using h7
        · intro ho
          obtain ⟨o1, o2, _, o4⟩ := ordered_node.1 ho
          have o5 : ∀ p ∈ toList l, p.1 < k := fun p hp => lt_trans (o1 p hp) hgt
          rw [h8, toList, toList, List.filter_append, List.filter_cons, filter_ne_of_lt o5,
            m1 o4]
          simp [ne_of_lt hgt]

end

/-! ## Black counts along paths, and the public operations -/

theorem black_counts_of_balanced (t : Node K V) :
    clean t = true → balanced t = true → ∀ x ∈ black_counts t, x = wbh t := by
  induction t with
  | nil => intro _ _ x hx; simpa [black_counts] using hx
  | doubleBlackNilNode => intro h; simp at h
  | node k v c l r ihl ihr =>
    intro hc hb x hx
    simp only [clean, balanced, Bool.and_eq_true, decide_eq_true_eq, ne_eq] at hc hb
    simp only [black_counts, List.mem_map, List.mem_append] at hx
    obtain ⟨y, hy, rfl⟩ := hx
    have hy1 : y = wbh l := by
      rcases hy with hy | hy
      · exact ihl hc.1.2 hb.1.2 y hy
      · rw [ihr hc.2 hb.2 y hy, hb.1.1]
    subst hy1
    cases c <;> simp_all

theorem wbh_mem_black_counts (t : Node K V) :
    clean t = true → wbh t ∈ black_counts t := by
  induction t with
  | nil => intro _; simp [black_counts]
  | doubleBlackNilNode => intro h; simp at h
  | node k v c l r ihl _ =>
    intro hc
    simp only [clean, Bool.and_eq_true, decide_eq_true_eq, ne_eq] at hc
    simp only [black_counts, List.mem_map, List.mem_append]
    exact ⟨wbh l, Or.inl (ihl hc.1.2), by cases c <;> simp_all⟩

theorem uniform_black_nil : uniform_black (nil : Node K V) := by
  intro a ha b hb
  simp only [black_counts, List.mem_singleton] at ha hb
  rw [ha, hb]

theorem uniform_of_balanced {t : Node K V} (hc : clean t = true) (hb : balanced t = true) :
    uniform_black t := by
  intro a ha b hb1
  rw [black_counts_of_balanced t hc hb a ha, black_counts_of_balanced t hc hb b hb1]

theorem balanced_of_uniform (t : Node K V) :
    clean t = true → uniform_black t → balanced t = true := by
  induction t with
  | nil => intro _ _; rfl
  | doubleBlackNilNode => intro _ _; rfl
  | node k v c l r ihl ihr =>
    intro hc hu
    simp only [clean, Bool.and_eq_true, decide_eq_true_eq, ne_eq] at hc
    have key : ∀ a ∈ black_counts l ++ black_counts r, ∀ b ∈ black_counts l ++ black_counts r,
        a = b := by
      intro a ha b hb
      have h := hu (if c = BLACK then a + 1 else a)
        (by simp only [black_counts, List.mem_map]; exact ⟨a, ha, rfl⟩)
        (if c = BLACK then b + 1 else b)
        (by simp only [black_counts, List.mem_map]; exact ⟨b, hb, rfl⟩)
      split at h <;> omega
    have hl : uniform_black l := fun a ha b hb =>
      key a (List.mem_append.2 (Or.inl ha)) b (List.mem_append.2 (Or.inl hb))
    have hr : uniform_black r := fun a ha b hb =>
      key a (List.mem_append.2 (Or.inr ha)) b (List.mem_append.2 (Or.inr hb))
    have hw : wbh l = wbh r :=
      key _ (List.mem_append.2 (Or.inl (wbh_mem_black_counts l hc.1.2))) _
        (List.mem_append.2 (Or.inr (wbh_mem_black_counts r hc.2)))
    simp [balanced, hw, ihl hc.1.2 hl, ihr hc.2 hr]

section
variable [LinearOrder K]

theorem invariants_nil : invariants (nil : Node K V) :=
  ⟨rfl, rfl, uniform_black_nil, rfl⟩

/-- The public `insert` on a tree satisfying the invariants: it returns a valid tree holding
the old pairs with the pair for `k` set to `(k, v)`. -/
theorem insert_spec (t : Node K V) (k : K) (v : V) (h : invariants t) :
    ∃ t1, insert t k v = some t1 ∧ valid t1 ∧ is_null t1 = false ∧
      ∀ p, p ∈ toList t1 ↔ p = (k, v) ∨ (p.1 ≠ k ∧ p ∈ toList t) := by
  obtain ⟨ho, hn, hu, hc⟩ := h
  obtain ⟨t1, e, c1, b1, w1, a1, n1, nn, o1⟩ :=
    insert_helper_inv k v t hc (balanced_of_uniform t hc hu) hn
  obtain ⟨o2, m2⟩ := o1 ho
  clear n1 w1 o1
  cases t1 with
  | nil => simp at nn
  | doubleBlackNilNode => simp at c1
  | node k1 v1 c l r =>
    refine ⟨node k1 v1 (if c = RED then BLACK else c) l r, by simp [insert, e],
      ⟨⟨?_, ?_, ?_, ?_⟩, ?_⟩, rfl, ?_⟩
    · rw [← o2]; exact ordered_congr rfl
    · cases c <;> simp_all
    · apply uniform_of_balanced
      · cases c <;> simp_all
      · simpa using b1
    · cases c <;> simp_all
    · cases c <;> simp_all
    · intro p; rw [← m2]; simp

/-- The public `remove` on a tree satisfying the invariants: it returns a tree satisfying them
that holds the old pairs without the pair for `k`, and whose root is not red unless the old
root was. -/
theorem remove_spec (t : Node K V) (k : K) (h : invariants t) :
    ∃ t1, remove t k = some t1 ∧ invariants t1 ∧ (red_node t = false → red_node t1 = false) ∧
      toList t1 = (toList t).filter (fun p => decide (p.1 ≠ k)) := by
  obtain ⟨ho, hn, hu, hc⟩ := h
  obtain ⟨t1, e, ⟨s1, b1, w1, n1, q1, _⟩, m1⟩ :=
    remove_helper_inv k t hc (balanced_of_uniform t hc hu) hn
  have m2 := m1 ho
  have hr1 : red_node t = false → red_node t1 = false := by
    intro hr
    cases h : red_node t1
    · rfl
    · rw [q1 h] at hr; exact hr
  have hord : ∀ t2 : Node K V, toList t2 = toList t1 → ordered t2 = true := by
    intro t2 h2
    rw [ordered_iff_pairwise, keys, h2, m2]
    exact ((ordered_iff_pairwise t).1 ho).sublist
      (List.Sublist.map _ (List.filter_sublist _))
  cases t1 with
  | nil => exact ⟨nil, by simp [remove, e], invariants_nil, fun _ => rfl, m2⟩
  | doubleBlackNilNode => exact ⟨nil, by simp [remove, e], invariants_nil, fun _ => rfl, m2⟩
  | node k1 v1 c l r =>
    simp only [semi_clean_node, Bool.and_eq_true] at s1
    by_cases hd : c = DOUBLE_BLACK
    · subst hd
      refine ⟨node k1 v1 BLACK l r, by simp [remove, e], ⟨hord _ rfl, ?_, ?_, ?_⟩,
        fun _ => rfl, m2⟩
      · simp_all
      · apply uniform_of_balanced
        · simp_all
        · simpa using b1
      · simp_all
    · refine ⟨node k1 v1 c l r, by simp [remove, e, hd], ⟨hord _ rfl, n1, ?_, ?_⟩, hr1, m2⟩
      · apply uniform_of_balanced
        · simp_all
        · exact b1
      · simp_all

end

/-! ## Sequences of operations and same-key inserts -/

theorem eq_nil_of_toList {t : Node K V} (hc : clean t = true) (h : toList t = []) :
    t = nil := by
  cases t with
  | nil => rfl
  | doubleBlackNilNode => simp at hc
  | node k v c l r => simp at h

theorem fix_doubleblack_clean {k : K} {v : V} {c : Color} {l r : Node K V}
    (cl : clean l = true) (cr : clean r = true) :
    fix_doubleblack (node k v c l r) = some (node k v c l r) := by
  simp [fix_doubleblack, is_double_black_of_clean cl, is_double_black_of_clean cr]

section
variable [LinearOrder K]

theorem mem_keys_insert {t t1 : Node K V} {k : K} {v : V}
    (h : ∀ p, p ∈ toList t1 ↔ p = (k, v) ∨ (p.1 ≠ k ∧ p ∈ toList t)) (x : K) :
    x ∈ keys t1 ↔ x = k ∨ x ∈ keys t := by
  simp only [mem_keys, h]
  constructor
  · rintro ⟨w, hw | ⟨_, hw⟩⟩
    · exact Or.inl (congrArg Prod.fst hw)
    · exact Or.inr ⟨w, hw⟩
  · rintro (rfl | ⟨w, hw⟩)
    · exact ⟨v, Or.inl rfl⟩
    · by_cases hx : x = k
      · exact ⟨v, Or.inl (by rw [hx])⟩
      · exact ⟨w, Or.inr ⟨hx, hw⟩⟩

theorem mem_keys_remove {t t1 : Node K V} {k : K}
    (h : toList t1 = (toList t).filter (fun p => decide (p.1 ≠ k))) (x : K) :
    x ∈ keys t1 ↔ x ∈ keys t ∧ x ≠ k := by
  simp only [mem_keys, h, List.mem_filter, decide_eq_true_eq]
  constructor
  · rintro ⟨w, hw, hx⟩
    exact ⟨⟨w, hw⟩, hx⟩
  · rintro ⟨⟨w, hw⟩, hx⟩
    exact ⟨w, hw, hx⟩

/-- A sequence of inserts into a tree satisfying the invariants succeeds, keeps the invariants,
and leaves each key with the value most recently given for it. -/
theorem insert_all_spec (kvs : List (K × V)) :
    ∀ t : Node K V, invariants t → ∃ t1, insert_all t kvs = some t1 ∧ invariants t1 ∧
      ∀ k v, (k, v) ∈ toList t1 ↔
        latest kvs k = some v ∨ (latest kvs k = none ∧ (k, v) ∈ toList t) := by
  induction kvs with
  | nil => intro t h; exact ⟨t, rfl, h, fun k v => by simp [latest]⟩
  | cons p rest ih =>
    intro t h
    obtain ⟨k0, v0⟩ := p
    obtain ⟨t1, e1, h1, _, m1⟩ := insert_spec t k0 v0 h
    obtain ⟨t2, e2, h2, m2⟩ := ih t1 h1.1
    refine ⟨t2, by simp [insert_all, e1, e2], h2, ?_⟩
    intro k v
    rw [m2, m1]
    simp only [latest]
    cases hl : latest rest k with
    | some w => simp
    | none =>
      by_cases hk : k0 = k
      · subst hk; simp [eq_comm]
      · have hk1 : ¬ k = k0 := fun h => hk h.symm
        simp [hk, hk1]

theorem latest_isSome {kvs : List (K × V)} {k : K} :
    (latest kvs k).isSome = true ↔ k ∈ kvs.map Prod.fst := by
  induction kvs with
  | nil => simp [latest]
  | cons p rest ih =>
    obtain ⟨k0, v0⟩ := p
    simp only [latest, List.map_cons, List.mem_cons]
    cases hl : latest rest k with
    | some w =>
      have : k ∈ rest.map Prod.fst := ih.1 (by simp [hl])
      simp [this]
    | none =>
      have : ¬ k ∈ rest.map Prod.fst := fun h => by simpa [hl] using ih.2 h
      by_cases hk : k0 = k
      · simp [hk]
      · have hk1 : ¬ k = k0 := fun h => hk h.symm
        simp [hk, hk1, this]

/-- A sequence of removes from a tree satisfying the invariants succeeds, keeps the invariants,
and deletes exactly the listed keys. -/
theorem remove_all_spec (ks : List K) :
    ∀ t : Node K V, invariants t → ∃ t1, remove_all t ks = some t1 ∧ invariants t1 ∧
      ∀ x, x ∈ keys t1 ↔ x ∈ keys t ∧ x ∉ ks := by
  induction ks with
  | nil => intro t h; exact ⟨t, rfl, h, fun x => by simp⟩
  | cons k rest ih =>
    intro t h
    obtain ⟨t1, e1, h1, _, m1⟩ := remove_spec t k h
    obtain ⟨t2, e2, h2, m2⟩ := ih t1 h1
    refine ⟨t2, by simp [remove_all, e1, e2], h2, ?_⟩
    intro x
    rw [m2, mem_keys_remove m1]
    simp only [List.mem_cons, not_or]
    tauto

theorem shape_set_val (k : K) (v : V) (t : Node K V) : shape (set_val k v t) = shape t := by
  induction t with
  | nil => rfl
  | doubleBlackNilNode => rfl
  | node key val c l r ihl ihr =>
    simp only [set_val]
    split_ifs <;> simp [shape, ihl, ihr]

theorem red_node_set_val (k : K) (v : V) (t : Node K V) :
    red_node (set_val k v t) = red_node t := by
  cases t with
  | nil => rfl
  | doubleBlackNilNode => rfl
  | node key val c l r =>
    simp only [set_val]
    split_ifs <;> rfl

theorem clean_set_val (k : K) (v : V) (t : Node K V) : clean (set_val k v t) = clean t := by
  induction t with
  | nil => rfl
  | doubleBlackNilNode => rfl
  | node key val c l r ihl ihr =>
    simp only [set_val]
    split_ifs <;> simp [clean, ihl, ihr]

theorem no_red_red_set_val (k : K) (v : V) (t : Node K V) :
    no_red_red (set_val k v t) = no_red_red t := by
  induction t with
  | nil => rfl
  | doubleBlackNilNode => rfl
  | node key val c l r ihl ihr =>
    simp only [set_val]
    split_ifs <;> simp [no_red_red, ihl, ihr, red_node_set_val]

/-- Re-inserting a present key only overwrites its value, provided no node above it on the
search path has two red children. -/
theorem insert_helper_present (k : K) (v : V) (t : Node K V) :
    clean t = true → no_red_red t = true → ordered t = true → k ∈ keys t →
    two_red_above k t = false → insert_helper t k v = some (set_val k v t) := by
  induction t with
  | nil => intro _ _ _ h; simp [keys] at h
  | doubleBlackNilNode => intro h; simp at h
  | node key val c l r ihl ihr =>
    intro hc hn ho hk h2
    simp only [clean, no_red_red, Bool.and_eq_true, decide_eq_true_eq,
      Bool.or_eq_true, Bool.not_eq_true', ne_eq] at hc hn
    obtain ⟨o1, o2, o3, o4⟩ := ordered_node.1 ho
    by_cases hkey : key = k
    · simp [insert_helper, set_val, hkey]
    · simp only [two_red_above, hkey, if_false, Bool.or_eq_false_iff] at h2
      rw [keys_node, List.mem_append, List.mem_cons] at hk
      by_cases hlt : k < key
      · have hkl : k ∈ keys l := by
          rcases hk with h | h | h
          · exact h
          · exact absurd h.symm hkey
          · obtain ⟨w, hw⟩ := mem_keys.1 h
            exact absurd (o2 _ hw) (not_lt_of_gt hlt)
        simp only [hlt, if_true] at h2
        have e := ihl hc.1.2 hn.1.2 o3 hkl h2.2
        simp only [insert_helper, set_val, hkey, hlt, if_false, if_true, e]
        exact fix_red_edge_noop (by rw [clean_set_val]; exact hc.1.2) hc.2
          (by rw [no_red_red_set_val]; exact hn.1.2) hn.2 (by rw [red_node_set_val]; exact h2.1)
      · have hkr : k ∈ keys r := by
          rcases hk with h | h | h
          · obtain ⟨w, hw⟩ := mem_keys.1 h
            exact absurd (o1 _ hw) hlt
          · exact absurd h.symm hkey
          · exact h
        simp only [hlt, if_false] at h2
        have e := ihr hc.2 hn.2 o4 hkr h2.2
        simp only [insert_helper, set_val, hkey, hlt, if_false, e]
        exact fix_red_edge_noop hc.1.2 (by rw [clean_set_val]; exact hc.2) hn.1.2
          (by rw [no_red_red_set_val]; exact hn.2) (by rw [red_node_set_val]; exact h2.1)

/-- Removing a key that occurs nowhere in a clean subtree hands the subtree back as it is. -/
theorem remove_helper_absent (k : K) (t : Node K V) :
    clean t = true → k ∉ keys t → remove_helper t k = some t := by
  induction t with
  | nil => intro _ _; rfl
  | doubleBlackNilNode => intro h; simp at h
  | node key val c l r ihl ihr =>
    intro hc hk
    simp only [clean, Bool.and_eq_true, decide_eq_true_eq, ne_eq] at hc
    rw [keys_node, List.mem_append, List.mem_cons] at hk
    have hne : ¬ k = key := fun h => hk (Or.inr (Or.inl h))
    have el := ihl hc.1.2 (fun h => hk (Or.inl h))
    have er := ihr hc.2 (fun h => hk (Or.inr (Or.inr h)))
    simp only [remove_helper, hne, if_false, el, er]
    split_ifs <;> exact fix_doubleblack_clean hc.1.2 hc.2

theorem nodup_keys_of_ordered {t : Node K V} (h : ordered t = true) : (keys t).Nodup :=
  ((ordered_iff_pairwise t).1 h).imp ne_of_lt

end

/-! ## The invariant checker -/

theorem is_error_iff (o : Line K V) :
    o.is_error = true ↔ o = Line.height_error ∨ o = Line.red_error ∨ o = Line.color_error := by
  cases o <;> simp [Line.is_error]

/-- The recursive calls of `debug_print_helper` on the children of a clean node, including
the case where both children are `nullptr` and the calls are skipped. -/
theorem debug_print_children {l r : Node K V} {i : Nat} (cl : clean l = true)
    (cr : clean r = true)
    (hl : ∃ out, debug_print_helper l (i + 4) = some (wbh l, out) ∧
      (Line.height_error ∈ out ↔ balanced l = false) ∧
      (Line.red_error ∈ out ↔ no_red_red l = false) ∧ Line.color_error ∉ out)
    (hr : ∃ out, debug_print_helper r (i + 4) = some (wbh r, out) ∧
      (Line.height_error ∈ out ↔ balanced r = false) ∧
      (Line.red_error ∈ out ↔ no_red_red r = false) ∧ Line.color_error ∉ out) :
    ∃ lo ro, (if is_null l && is_null r then some ((0, []), (0, []))
        else (debug_print_helper l (i + 4)).bind fun a =>
          (debug_print_helper r (i + 4)).bind fun b => some (a, b)) =
        some ((wbh l, lo), (wbh r, ro)) ∧
      (Line.height_error ∈ lo ↔ balanced l = false) ∧
      (Line.red_error ∈ lo ↔ no_red_red l = false) ∧ Line.color_error ∉ lo ∧
      (Line.height_error ∈ ro ↔ balanced r = false) ∧
      (Line.red_error ∈ ro ↔ no_red_red r = false) ∧ Line.color_error ∉ ro := by
  by_cases h : (is_null l && is_null r) = true
  · simp only [Bool.and_eq_true] at h
    have e1 := is_null_of_clean cl h.1
    have e2 := is_null_of_clean cr h.2
    subst e1 e2
    exact ⟨[], [], by simp, by simp, by simp, by simp, by simp, by simp, by simp⟩
  · obtain ⟨lo, el, h1, h2, h3⟩ := hl
    obtain ⟨ro, er, h4, h5, h6⟩ := hr
    exact ⟨lo, ro, by simp [h, el, er], h1, h2, h3, h4, h5, h6⟩

/-- What `debug_print_helper` returns and prints on a subtree whose nodes are all `RED` or
`BLACK`: the black count of the leftmost path, a height error exactly when some node has
children of different counts, a red error exactly when some red node has a red child. -/
theorem debug_print_helper_spec (t : Node K V) :
    ∀ i, clean t = true → ∃ out, debug_print_helper t i = some (wbh t, out) ∧
      (Line.height_error ∈ out ↔ balanced t = false) ∧
      (Line.red_error ∈ out ↔ no_red_red t = false) ∧ Line.color_error ∉ out := by
  induction t with
  | nil => intro i _; exact ⟨_, rfl, by simp, by simp, by simp⟩
  | doubleBlackNilNode => intro _ h; simp at h
  | node k v c l r ihl ihr =>
    intro i hc
    simp only [clean, Bool.and_eq_true, decide_eq_true_eq, ne_eq] at hc
    obtain ⟨⟨hc0, cl⟩, cr⟩ := hc
    obtain ⟨lo, ro, e, h1, h2, h3, h4, h5, h6⟩ :=
      debug_print_children cl cr (ihl (i + 4) cl) (ihr (i + 4) cr)
    have il := is_red_of_clean cl
    have ir := is_red_of_clean cr
    have key : ∀ (red : Bool) (b : Bool) (x : Line K V), x.is_error = true →
        (x ∈ Line.node_line i k red v :: (lo ++ ro)
          ++ (if wbh l ≠ wbh r then [Line.height_error] else [])
          ++ (if b then [Line.red_error] else []) ↔
        x ∈ lo ∨ x ∈ ro ∨ (x = Line.height_error ∧ wbh l ≠ wbh r) ∨
          (x = Line.red_error ∧ b = true)) := by
      intro red b x hx
      simp only [List.mem_append, List.mem_cons]
      constructor
      · rintro (((rfl | h | h) | h) | h)
        · simp [Line.is_error] at hx
        · exact Or.inl h
        · exact Or.inr (Or.inl h)
        · split_ifs at h with hw
          · exact Or.inr (Or.inr (Or.inl ⟨List.mem_singleton.1 h, hw⟩))
          · simp at h
        · cases b
          · simp at h
          · exact Or.inr (Or.inr (Or.inr ⟨List.mem_singleton.1 h, rfl⟩))
      · rintro (h | h | ⟨rfl, hw⟩ | ⟨rfl, hb⟩)
        · exact Or.inl (Or.inl (Or.inr (Or.inl h)))
        · exact Or.inl (Or.inl (Or.inr (Or.inr h)))
        · exact Or.inl (Or.inr (by simp [hw]))
        · exact Or.inr (by simp [hb])
    have hb : balanced (node k v c l r) = false ↔
        balanced l = false ∨ balanced r = false ∨ wbh l ≠ wbh r := by
      cases h7 : balanced l <;> cases h8 : balanced r <;> simp [h7, h8]
    have hn : no_red_red (node k v c l r) = false ↔
        no_red_red l = false ∨ no_red_red r = false ∨
          (c = RED ∧ (red_node l || red_node r) = true) := by
      cases h7 : no_red_red l <;> cases h8 : no_red_red r <;>
        cases h9 : red_node l <;> cases h10 : red_node r <;> simp [h7, h8, h9, h10]
    cases c with
    | DOUBLE_BLACK => exact absurd rfl hc0
    | RED =>
      refine ⟨_, by simp only [debug_print_helper, e, Option.some_bind]; rfl, ?_, ?_, ?_⟩
      · refine (key _ _ Line.height_error rfl).trans ?_
        rw [hb, h1, h4]; simp
      · refine (key _ _ Line.red_error rfl).trans ?_
        rw [hn, h2, h5, il, ir]; simp
      · refine fun h => ?_
        have := (key _ _ Line.color_error rfl).1 h
        simp [h3, h6] at this
    | BLACK =>
      refine ⟨_, by simp only [debug_print_helper, e, Option.some_bind]; rfl, ?_, ?_, ?_⟩
      · refine (key _ _ Line.height_error rfl).trans ?_
        rw [hb, h1, h4]; simp
      · refine (key _ _ Line.red_error rfl).trans ?_
        rw [hn, h2, h5, il, ir]; simp
      · refine fun h => ?_
        have := (key _ _ Line.color_error rfl).1 h
        simp [h3, h6] at this

/-- On a clean, balanced subtree without red-red edges `debug_print_helper` prints no error
line. -/
theorem debug_print_no_error (t : Node K V) (i : Nat) (hc : clean t = true)
    (hb : balanced t = true) (hn : no_red_red t = true) :
    ∃ out, debug_print_helper t i = some (wbh t, out) ∧ ∀ o ∈ out, o.is_error = false := by
  obtain ⟨out, e, h1, h2, h3⟩ := debug_print_helper_spec t i hc
  refine ⟨out, e, ?_⟩
  intro o ho
  cases hoe : o.is_error
  · rfl
  · rcases (is_error_iff o).1 hoe with rfl | rfl | rfl
    · rw [h1.1 ho] at hb; exact absurd hb (by decide)
    · rw [h2.1 ho] at hn; exact absurd hn (by decide)
    · exact absurd ho h3

/-! ## Depth of the tree and of the recursion -/

/-- In a clean, balanced subtree without red-red edges the longest path has at most twice as
many nodes as the leftmost path has black nodes, plus one when the root is red. -/
theorem height_le_wbh (t : Node K V) :
    clean t = true → balanced t = true → no_red_red t = true →
    height t ≤ 2 * wbh t + (if red_node t = true then 1 else 0) := by
  induction t with
  | nil => intro _ _ _; simp [height]
  | doubleBlackNilNode => intro h; simp at h
  | node k v c l r ihl ihr =>
    intro hc hb hn
    simp only [clean, balanced, no_red_red, Bool.and_eq_true, decide_eq_true_eq,
      Bool.or_eq_true, Bool.not_eq_true', ne_eq] at hc hb hn
    obtain ⟨⟨hc0, cl⟩, cr⟩ := hc
    obtain ⟨⟨hw, bl⟩, br⟩ := hb
    obtain ⟨⟨hn0, nl⟩, nr⟩ := hn
    have h1 := ihl cl bl nl
    have h2 := ihr cr br nr
    cases c with
    | DOUBLE_BLACK => exact absurd rfl hc0
    | RED =>
      simp only [not_true_eq_false, false_or] at hn0
      simp only [hn0.1, hn0.2, Bool.false_eq_true, if_false, Nat.add_zero] at h1 h2
      simp only [height, wbh, weight_RED, red_node_node, decide_True, if_true]
      omega
    | BLACK =>
      simp only [height, wbh, weight_BLACK, red_node_node]
      split_ifs at h1 h2 <;> simp <;> omega

/-- A clean, balanced subtree whose leftmost path has `b` black nodes has at least `2 ^ b - 1`
nodes. -/
theorem two_pow_wbh_le (t : Node K V) :
    clean t = true → balanced t = true → 2 ^ wbh t ≤ (toList t).length + 1 := by
  induction t with
  | nil => intro _ _; simp
  | doubleBlackNilNode => intro h; simp at h
  | node k v c l r ihl ihr =>
    intro hc hb
    simp only [clean, balanced, Bool.and_eq_true, decide_eq_true_eq, ne_eq] at hc hb
    obtain ⟨⟨hc0, cl⟩, cr⟩ := hc
    obtain ⟨⟨hw, bl⟩, br⟩ := hb
    have h1 := ihl cl bl
    have h2 := ihr cr br
    rw [← hw] at h2
    simp only [toList, List.length_append, List.length_cons, wbh]
    cases c with
    | DOUBLE_BLACK => exact absurd rfl hc0
    | RED => simp only [weight_RED, Nat.add_zero]; omega
    | BLACK => simp only [weight_BLACK, Nat.pow_succ]; omega

/-- The depth bound of a valid tree: `2 ^ ceil(h / 2) ≤ n + 1`. -/
theorem depth_bound_of_valid [LinearOrder K] {t : Node K V} (h : valid t) :
    2 ^ ((height t + 1) / 2) ≤ (keys t).length + 1 := by
  obtain ⟨⟨_, hn, hu, hc⟩, hr⟩ := h
  have hb := balanced_of_uniform t hc hu
  have h1 := height_le_wbh t hc hb hn
  have h2 := two_pow_wbh_le t hc hb
  simp only [hr, Bool.false_eq_true, if_false, Nat.add_zero] at h1
  have h3 : (height t + 1) / 2 ≤ wbh t := by omega
  calc 2 ^ ((height t + 1) / 2) ≤ 2 ^ wbh t := Nat.pow_le_pow_right (by decide) h3
    _ ≤ (toList t).length + 1 := h2
    _ = (keys t).length + 1 := by simp [keys]

theorem extract_min_depth_le (t : Node K V) :
    clean t = true → is_null t = false → extract_min_depth t ≤ height t := by
  induction t with
  | nil => intro _ h; simp at h
  | doubleBlackNilNode => intro h; simp at h
  | node k v c l r ihl _ =>
    intro hc _
    simp only [clean, Bool.and_eq_true] at hc
    simp only [extract_min_depth, height]
    split_ifs with h
    · omega
    · have := ihl hc.1.2 (by simpa using h)
      omega

section
variable [LinearOrder K]

theorem insert_depth_le (t : Node K V) (k : K) : insert_depth t k ≤ height t + 1 := by
  induction t with
  | nil => simp [insert_depth]
  | doubleBlackNilNode => simp [insert_depth]
  | node key v c l r ihl ihr =>
    simp only [insert_depth, height]
    split_ifs <;> omega

theorem remove_depth_le (t : Node K V) (k : K) :
    clean t = true → remove_depth t k ≤ height t + 1 := by
  induction t with
  | nil => simp [remove_depth]
  | doubleBlackNilNode => simp [remove_depth]
  | node key v c l r ihl ihr =>
    intro hc
    simp only [clean, Bool.and_eq_true] at hc
    have h4 := ihl hc.1.2
    have h5 := ihr hc.2
    simp only [remove_depth, height]
    split_ifs with h1 h2 h3
    · omega
    · simp only [Bool.or_eq_true, not_or, Bool.not_eq_true] at h2
      have := extract_min_depth_le r hc.2 h2.1
      omega
    · omega
    · omega

/-- Every sequence of public calls on a valid tree runs to completion and ends in a valid
tree. -/
theorem run_spec (calls : List (Call K V)) :
    ∀ t : Node K V, valid t → ∃ t1, run t calls = some t1 ∧ valid t1 := by
  induction calls with
  | nil => intro t h; exact ⟨t, rfl, h⟩
  | cons c rest ih =>
    intro t h
    cases c with
    | insert k v =>
      obtain ⟨t1, e1, h1, _⟩ := insert_spec t k v h.1
      obtain ⟨t2, e2, h2⟩ := ih t1 h1
      exact ⟨t2, by simp [run, e1, e2], h2⟩
    | remove k =>
      obtain ⟨t1, e1, h1, hr, _⟩ := remove_spec t k h.1
      obtain ⟨t2, e2, h2⟩ := ih t1 ⟨h1, hr h.2⟩
      exact ⟨t2, by simp [run, e1, e2], h2⟩

end

/-! ## Which repairs pass the deficiency upward -/

@[simp] theorem root_color_node (k : K) (v : V) (c : Color) (l r : Node K V) :
    root_color (node k v c l r) = some c := rfl

/-- What `pull_black` does to a deficient child: the sentinel becomes `nullptr`, a
`DOUBLE_BLACK` node becomes `BLACK`. -/
theorem pull_child_of_deficient {t : Node K V} (hs : semi_clean t = true)
    (hd : is_double_black t = true) (hb : balanced t = true) :
    ∃ t1, pull_child t = some t1 ∧ clean t1 = true ∧ balanced t1 = true ∧
      wbh t = wbh t1 + 1 := by
  cases t with
  | nil => simp at hd
  | doubleBlackNilNode => exact ⟨nil, rfl, rfl, rfl, rfl⟩
  | node k v c l r =>
    simp only [is_double_black_node, decide_eq_true_eq] at hd
    subst hd
    refine ⟨node k v BLACK l r, rfl, ?_, ?_, rfl⟩
    · simpa using hs
    · simpa using hb

/-- The three outcomes of `fix_left_doubleblack_right_black` below a node `z` of color `c`
whose left child is deficient and whose right child is a black node. -/
theorem fix_left_doubleblack_right_black_cases {k rk : K} {v rv : V} {c : Color}
    {l rl rr : Node K V} (hc : c ≠ DOUBLE_BLACK)
    (sl : semi_clean l = true) (dl : is_double_black l = true) (bl : balanced l = true)
    (crl : clean rl = true) (crr : clean rr = true)
    (brl : balanced rl = true) (brr : balanced rr = true)
    (hw1 : wbh rl = wbh rr) (hw : wbh l = wbh rl + 1) :
    ∃ t, fix_left_doubleblack_right_black (node k v c l (node rk rv BLACK rl rr)) = some t ∧
      (root_color t = some DOUBLE_BLACK ↔
        c = BLACK ∧ red_node rl = false ∧ red_node rr = false) ∧
      (red_node rl = true ∨ red_node rr = true → root_color t = some c) ∧
      (root_color t ≠ some DOUBLE_BLACK →
        clean t = true ∧ balanced t = true ∧ wbh t = wbh l + c.weight) := by
  obtain ⟨l1, pl, cl1, bl1, wl1⟩ := pull_child_of_deficient sl dl bl
  rw [wl1]
  rw [wl1] at hw
  clear sl bl wl1
  have i1 := is_red_of_clean crl
  by_cases h2 : red_node rr = true
  · obtain ⟨k2, v2, a, b, rfl⟩ := red_node_eq h2
    simp only [clean, balanced, wbh, weight_RED, Bool.and_eq_true,
      decide_eq_true_eq, ne_eq, Nat.add_zero] at crr brr hw1
    obtain ⟨⟨hw2, ba⟩, bb⟩ := brr
    refine ⟨node rk rv c (node k v BLACK l1 rl) (node k2 v2 BLACK a b), ?_, ?_, ?_, ?_⟩
    · cases c
      · simp [fix_left_doubleblack_right_black, dl, pl]
      · simp [fix_left_doubleblack_right_black, dl, pl]
      · exact absurd rfl hc
    · cases c
      · simp
      · simp
      · exact absurd rfl hc
    · intro _; rfl
    · intro _
      refine ⟨?_, ?_, ?_⟩
      · simp [cl1, crl, crr, hc]
      · simp [bl1, brl, ba, bb]; omega
      · simp
  · have i2 := is_red_of_clean crr
    have i3 := is_black_of_clean crr
    simp only [Bool.not_eq_true] at h2
    by_cases h1 : red_node rl = true
    · obtain ⟨k1, v1, a, b, rfl⟩ := red_node_eq h1
      simp only [clean, balanced, wbh, weight_RED, Bool.and_eq_true,
        decide_eq_true_eq, ne_eq, Nat.add_zero] at crl brl hw1 hw
      obtain ⟨⟨hw2, ba⟩, bb⟩ := brl
      refine ⟨node k1 v1 c (node k v BLACK l1 a) (node rk rv BLACK b rr), ?_, ?_, ?_, ?_⟩
      · cases c
        · simp [fix_left_doubleblack_right_black, dl, pl, i3, h2]
        · simp [fix_left_doubleblack_right_black, dl, pl, i3, h2]
        · exact absurd rfl hc
      · cases c
        · simp
        · simp
        · exact absurd rfl hc
      · intro _; rfl
      · intro _
        refine ⟨?_, ?_, ?_⟩
        · simp [cl1, crl, crr, hc]
        · simp [bl1, ba, bb, brr]; omega
        · simp
    · simp only [Bool.not_eq_true] at h1
      cases c
      · refine ⟨node k v BLACK l1 (node rk rv RED rl rr), ?_, ?_, ?_, ?_⟩
        · simp [fix_left_doubleblack_right_black, dl, pl, i1, i2, h1, h2]
        · simp
        · simp [h1, h2]
        · intro _
          refine ⟨?_, ?_, ?_⟩
          · simp [cl1, crl, crr]
          · simp [bl1, brl, brr]; omega
          · simp
      · refine ⟨node k v DOUBLE_BLACK l1 (node rk rv RED rl rr), ?_, ?_, ?_, ?_⟩
        · simp [fix_left_doubleblack_right_black, dl, pl, i1, i2, h1, h2]
        · simp [h1, h2]
        · simp [h1, h2]
        · intro h; simp at h
      · exact absurd rfl hc

/-- The three outcomes of `fix_right_doubleblack_left_black` below a node `z` of color `c`
whose right child is deficient and whose left child is a black node. -/
theorem fix_right_doubleblack_left_black_cases {k lk : K} {v lv : V} {c : Color}
    {r ll lr : Node K V} (hc : c ≠ DOUBLE_BLACK)
    (sr : semi_clean r = true) (dr : is_double_black r = true) (br : balanced r = true)
    (cll : clean ll = true) (clr : clean lr = true)
    (bll : balanced ll = true) (blr : balanced lr = true)
    (hw1 : wbh ll = wbh lr) (hw : wbh r = wbh ll + 1) :
    ∃ t, fix_right_doubleblack_left_black (node k v c (node lk lv BLACK ll lr) r) = some t ∧
      (root_color t = some DOUBLE_BLACK ↔
        c = BLACK ∧ red_node ll = false ∧ red_node lr = false) ∧
      (red_node ll = true ∨ red_node lr = true → root_color t = some c) ∧
      (root_color t ≠ some DOUBLE_BLACK →
        clean t = true ∧ balanced t = true ∧ wbh t = wbh r + c.weight) := by
  obtain ⟨r1, pr, cr1, br1, wr1⟩ := pull_child_of_deficient sr dr br
  rw [wr1]
  rw [wr1] at hw
  clear sr br wr1
  have i1 := is_red_of_clean clr
  by_cases h2 : red_node ll = true
  · obtain ⟨k2, v2, a, b, rfl⟩ := red_node_eq h2
    simp only [clean, balanced, wbh, weight_RED, Bool.and_eq_true,
      decide_eq_true_eq, ne_eq, Nat.add_zero] at cll bll hw1 hw
    obtain ⟨⟨hw2, ba⟩, bb⟩ := bll
    refine ⟨node lk lv c (node k2 v2 BLACK a b) (node k v BLACK lr r1), ?_, ?_, ?_, ?_⟩
    · cases c
      · simp [fix_right_doubleblack_left_black, dr, pr]
      · simp [fix_right_doubleblack_left_black, dr, pr]
      · exact absurd rfl hc
    · cases c
      · simp
      · simp
      · exact absurd rfl hc
    · intro _; rfl
    · intro _
      refine ⟨?_, ?_, ?_⟩
      · simp [cr1, cll, clr, hc]
      · simp [br1, blr, ba, bb]; omega
      · simp; omega
  · have i2 := is_red_of_clean cll
    have i3 := is_black_of_clean cll
    simp only [Bool.not_eq_true] at h2
    by_cases h1 : red_node lr = true
    · obtain ⟨k1, v1, a, b, rfl⟩ := red_node_eq h1
      simp only [clean, balanced, wbh, weight_RED, Bool.and_eq_true,
        decide_eq_true_eq, ne_eq, Nat.add_zero] at clr blr hw1
      obtain ⟨⟨hw2, ba⟩, bb⟩ := blr
      refine ⟨node k1 v1 c (node lk lv BLACK ll a) (node k v BLACK b r1), ?_, ?_, ?_, ?_⟩
      · cases c
        · simp [fix_right_doubleblack_left_black, dr, pr, i3, h2]
        · simp [fix_right_doubleblack_left_black, dr, pr, i3, h2]
        · exact absurd rfl hc
      · cases c
        · simp [h2]
        · simp [h2]
        · exact absurd rfl hc
      · intro _; rfl
      · intro _
        refine ⟨?_, ?_, ?_⟩
        · simp [cr1, cll, clr, hc]
        · simp [br1, bll, ba, bb]; omega
        · simp; omega
    · simp only [Bool.not_eq_true] at h1
      cases c
      · refine ⟨node k v BLACK (node lk lv RED ll lr) r1, ?_, ?_, ?_, ?_⟩
        · simp [fix_right_doubleblack_left_black, dr, pr, i1, i2, h1, h2]
        · simp
        · simp [h1, h2]
        · intro _
          refine ⟨?_, ?_, ?_⟩
          · simp [cr1, cll, clr]
          · simp [br1, bll, blr]; omega
          · simp; omega
      · refine ⟨node k v DOUBLE_BLACK (node lk lv RED ll lr) r1, ?_, ?_, ?_, ?_⟩
        · simp [fix_right_doubleblack_left_black, dr, pr, i1, i2, h1, h2]
        · simp [h1, h2]
        · simp [h1, h2]
        · intro h; simp at h
      · exact absurd rfl hc

/-- A clean subtree of positive black-height is a red or a black node. -/
theorem node_of_wbh {t : Node K V} (hc : clean t = true) (hw : 0 < wbh t) :
    ∃ k v c l r, t = node k v c l r ∧ (c = RED ∨ c = BLACK) := by
  cases t with
  | nil => simp at hw
  | doubleBlackNilNode => simp at hc
  | node k v c l r =>
    refine ⟨k, v, c, l, r, rfl, ?_⟩
    cases c
    · exact Or.inl rfl
    · exact Or.inr rfl
    · simp at hc

/-- The outcome of `fix_doubleblack` on a node whose left child `d` is deficient and whose
right child `s` is a clean, balanced subtree without red-red edges of the same weighted
black-height. -/
theorem fix_doubleblack_deficient_left {k : K} {v : V} {c : Color} {d s : Node K V}
    (hc : c ≠ DOUBLE_BLACK)
    (sd : semi_clean d = true) (dd : is_double_black d = true) (bd : balanced d = true)
    (cs : clean s = true) (bs : balanced s = true) (ns : no_red_red s = true)
    (hw : wbh d = wbh s) :
    ∃ t, fix_doubleblack (node k v c d s) = some t ∧
      (root_color t = some DOUBLE_BLACK ↔
        c = BLACK ∧ root_color s = some BLACK ∧ has_red_child s = false) ∧
      (root_color t ≠ some DOUBLE_BLACK →
        clean t = true ∧ balanced t = true ∧ wbh t = wbh s + c.weight) ∧
      (root_color s = some BLACK → has_red_child s = true → root_color t = some c) := by
  obtain ⟨d1, _, _, _, wd⟩ := pull_child_of_deficient sd dd bd
  obtain ⟨rk, rv, rc, rl, rr, rfl, hrc⟩ := node_of_wbh cs (by omega)
  simp only [clean, balanced, no_red_red, Bool.and_eq_true, decide_eq_true_eq,
    Bool.or_eq_true, Bool.not_eq_true', ne_eq] at cs bs ns
  obtain ⟨⟨-, crl⟩, crr⟩ := cs
  obtain ⟨⟨hw1, brl⟩, brr⟩ := bs
  obtain ⟨⟨ns0, nrl⟩, nrr⟩ := ns
  rcases hrc with rfl | rfl
  · -- red sibling: flip towards the deficiency, then repair one level down
    simp only [not_true_eq_false, false_or] at ns0
    simp only [wbh, weight_RED, Nat.add_zero] at hw
    obtain ⟨k1, v1, a, b, rfl⟩ := black_node_of_wbh crl ns0.1 (by omega)
    simp only [wbh, weight_BLACK] at hw hw1
    simp only [clean, balanced, Bool.and_eq_true, decide_eq_true_eq, ne_eq] at crl brl
    obtain ⟨t1, e1, h1, _, h3⟩ :=
      @fix_left_doubleblack_right_black_cases _ _ k k1 v v1 RED _ _ _
        (by simp) sd dd bd crl.1.2 crl.2 brl.1.2 brl.2 brl.1.1
        hw
    have h4 : root_color t1 ≠ some DOUBLE_BLACK := fun h => by simpa using h1.1 h
    obtain ⟨c1, b1, w1⟩ := h3 h4
    refine ⟨node rk rv c t1 rr, ?_, ?_, ?_, ?_⟩
    · simp [fix_doubleblack, fix_left_doubleblack, dd, e1]
    · simp [hc]
    · intro _
      refine ⟨?_, ?_, ?_⟩
      · simp [c1, crr, hc]
      · simp only [weight_RED, Nat.add_zero] at w1
        simp [b1, brr]; omega
      · simp only [weight_RED, Nat.add_zero] at w1
        simp; omega
    · intro h; simp at h
  · -- black sibling
    simp only [wbh, weight_BLACK] at hw
    obtain ⟨t, e, h1, h2, h3⟩ :=
      @fix_left_doubleblack_right_black_cases _ _ k rk v rv _ _ _ _
        hc sd dd bd crl crr brl brr hw1 hw
    refine ⟨t, ?_, ?_, ?_, ?_⟩
    · simp [fix_doubleblack, fix_left_doubleblack, dd, e]
    · rw [h1]; simp [has_red_child]
    · intro h
      obtain ⟨c1, b1, w1⟩ := h3 h
      exact ⟨c1, b1, by simp only [wbh, weight_BLACK]; omega⟩
    · intro _ h
      apply h2
      simpa [has_red_child] using h

/-- The outcome of `fix_doubleblack` on a node whose right child `d` is deficient and whose left
child `s` is a clean, balanced subtree without red-red edges of the same weighted
black-height. -/
theorem fix_doubleblack_deficient_right {k : K} {v : V} {c : Color} {d s : Node K V}
    (hc : c ≠ DOUBLE_BLACK)
    (sd : semi_clean d = true) (dd : is_double_black d = true) (bd : balanced d = true)
    (cs : clean s = true) (bs : balanced s = true) (ns : no_red_red s = true)
    (hw : wbh d = wbh s) :
    ∃ t, fix_doubleblack (node k v c s d) = some t ∧
      (root_color t = some DOUBLE_BLACK ↔
        c = BLACK ∧ root_color s = some BLACK ∧ has_red_child s = false) ∧
      (root_color t ≠ some DOUBLE_BLACK →
        clean t = true ∧ balanced t = true ∧ wbh t = wbh s + c.weight) ∧
      (root_color s = some BLACK → has_red_child s = true → root_color t = some c) := by
  obtain ⟨d1, _, _, _, wd⟩ := pull_child_of_deficient sd dd bd
  have ds := is_double_black_of_clean cs
  obtain ⟨lk, lv, lc, ll, lr, rfl, hlc⟩ := node_of_wbh cs (by omega)
  simp only [clean, balanced, no_red_red, Bool.and_eq_true, decide_eq_true_eq,
    Bool.or_eq_true, Bool.not_eq_true', ne_eq] at cs bs ns
  obtain ⟨⟨-, cll⟩, clr⟩ := cs
  obtain ⟨⟨hw1, bll⟩, blr⟩ := bs
  obtain ⟨⟨ns0, nll⟩, nlr⟩ := ns
  rcases hlc with rfl | rfl
  · simp only [not_true_eq_false, false_or] at ns0
    simp only [wbh, weight_RED, Nat.add_zero] at hw
    obtain ⟨k1, v1, a, b, rfl⟩ := black_node_of_wbh clr ns0.2 (by omega)
    simp only [wbh, weight_BLACK] at hw hw1
    simp only [clean, balanced, Bool.and_eq_true, decide_eq_true_eq, ne_eq] at clr blr
    obtain ⟨t1, e1, h1, _, h3⟩ :=
      @fix_right_doubleblack_left_black_cases _ _ k k1 v v1 RED _ _ _
        (by simp) sd dd bd clr.1.2 clr.2 blr.1.2 blr.2 blr.1.1 (by omega)
    have h4 : root_color t1 ≠ some DOUBLE_BLACK := fun h => by simpa using h1.1 h
    obtain ⟨c1, b1, w1⟩ := h3 h4
    refine ⟨node lk lv c ll t1, ?_, ?_, ?_, ?_⟩
    · simp [fix_doubleblack, fix_right_doubleblack, dd, e1]
    · simp [hc]
    · intro _
      refine ⟨?_, ?_, ?_⟩
      · simp [c1, cll, hc]
      · simp only [weight_RED, Nat.add_zero] at w1
        simp [b1, bll]; omega
      · simp
    · intro h; simp at h
  · simp only [wbh, weight_BLACK] at hw
    obtain ⟨t, e, h1, h2, h3⟩ :=
      @fix_right_doubleblack_left_black_cases _ _ k lk v lv _ _ _ _
        hc sd dd bd cll clr bll blr hw1 hw
    refine ⟨t, ?_, ?_, ?_, ?_⟩
    · simp [fix_doubleblack, fix_right_doubleblack, dd, e]
    · rw [h1]; simp [has_red_child]
    · intro h
      obtain ⟨c1, b1, w1⟩ := h3 h
      exact ⟨c1, b1, by simp only [wbh, weight_BLACK]; omega⟩
    · intro _ h
      apply h2
      simpa [has_red_child] using h

/-! ## Leftmost node and black-height -/

theorem black_height_of_clean (t : Node K V) : clean t = true → black_height t = wbh t := by
  induction t with
  | nil => intro _; rfl
  | doubleBlackNilNode => intro h; simp at h
  | node k v c l r ihl _ =>
    intro hc
    simp only [clean, Bool.and_eq_true, decide_eq_true_eq, ne_eq] at hc
    simp only [black_height, wbh, ihl hc.1.2]
    cases c <;> simp_all

theorem wbh_of_deficient {d : Node K V} (sd : semi_clean d = true)
    (dd : is_double_black d = true) : wbh d = black_height d + 1 := by
  cases d with
  | nil => simp at dd
  | doubleBlackNilNode => rfl
  | node k v c l r =>
    simp only [is_double_black_node, decide_eq_true_eq] at dd
    subst dd
    simp only [semi_clean_node, Bool.and_eq_true] at sd
    simp [black_height, black_height_of_clean l sd.1]

theorem black_counts_ne_nil (t : Node K V) : black_counts t ≠ [] := by
  induction t with
  | nil => simp [black_counts]
  | doubleBlackNilNode => simp [black_counts]
  | node k v c l r ihl _ => simp [black_counts, ihl]

theorem leftmost_eq_head (t : Node K V) : leftmost t = (toList t).head? := by
  induction t with
  | nil => rfl
  | doubleBlackNilNode => rfl
  | node k v c l r ihl _ =>
    simp only [leftmost, toList, ihl]
    cases toList l <;> simp

/-- A clean subtree that is not red at the root is empty or a black node. -/
theorem nil_or_black_of_clean {t : Node K V} (hc : clean t = true)
    (hr : red_node t = false) : t = nil ∨ root_color t = some BLACK := by
  cases t with
  | nil => exact Or.inl rfl
  | doubleBlackNilNode => simp at hc
  | node k v c l r => cases c <;> simp_all

section
variable [LinearOrder K]

theorem head_lt_of_ordered {t : Node K V} {p : K × V} {rest : List (K × V)}
    (ho : ordered t = true) (h : toList t = p :: rest) : ∀ q ∈ rest, p.1 < q.1 := by
  have h1 := (ordered_iff_pairwise t).1 ho
  rw [keys, h, List.map_cons, List.pairwise_cons] at h1
  intro q hq
  exact h1.1 _ (List.mem_map_of_mem _ hq)

theorem ordered_left {k : K} {v : V} {c : Color} {l r : Node K V}
    (h : ordered (node k v c l r) = true) : ordered l = true := (ordered_node.1 h).2.2.1

theorem ordered_right {k : K} {v : V} {c : Color} {l r : Node K V}
    (h : ordered (node k v c l r) = true) : ordered r = true := (ordered_node.1 h).2.2.2

end

/-! ## The claims -/

section
variable [LinearOrder K]

/-- Claim C1. On a tree that satisfies invariants 1-4 (every node RED or BLACK, no sentinel;
the root may be black or not), `remove k` returns, for every key `k` whether present or
absent, a tree in which no red node has a red child and in which every path from the root to
an empty subtree passes through the same number of black nodes. -/
theorem remove_keeps_color_invariants (t : Node K V) (k : K) (h : invariants t) :
    ∃ t1, remove t k = some t1 ∧ no_red_red t1 = true ∧ uniform_black t1 := by
  obtain ⟨t1, e, ⟨_, hn, hu, _⟩, _⟩ := remove_spec t k h
  exact ⟨t1, e, hn, hu⟩

/-- Claim C2. On a tree that satisfies invariants 1-4 (every node RED or BLACK; the root may
be black or not), `insert k v` returns a tree in which no red node has a red child and in
which every path from the root to an empty subtree passes through the same number of black
nodes. -/
theorem insert_keeps_color_invariants (t : Node K V) (k : K) (v : V) (h : invariants t) :
    ∃ t1, insert t k v = some t1 ∧ no_red_red t1 = true ∧ uniform_black t1 := by
  obtain ⟨t1, e, ⟨⟨_, hn, hu, _⟩, _⟩, _⟩ := insert_spec t k v h
  exact ⟨t1, e, hn, hu⟩

/-- Claim C3. Both public mutators preserve the strict search-tree ordering (and with it the
uniqueness of keys): on a tree satisfying the invariants, the tree after `insert k v` and the
tree after `remove k` are ordered again and hold no key twice. -/
theorem mutators_keep_ordering (t : Node K V) (k : K) (v : V) (h : invariants t) :
    (∃ t1, insert t k v = some t1 ∧ ordered t1 = true ∧ (keys t1).Nodup) ∧
      (∃ t2, remove t k = some t2 ∧ ordered t2 = true ∧ (keys t2).Nodup) := by
  obtain ⟨t1, e1, ⟨⟨o1, _⟩, _⟩, _⟩ := insert_spec t k v h
  obtain ⟨t2, e2, ⟨o2, _⟩, _⟩ := remove_spec t k h
  exact ⟨⟨t1, e1, o1, nodup_keys_of_ordered o1⟩, ⟨t2, e2, o2, nodup_keys_of_ordered o2⟩⟩

/-- Claim C4. On a tree `t` satisfying the invariants, after `insert k v` the set of keys is
`keys t ∪ {k}`, the key `k` carries the value `v` and no other value, and every other key
carries exactly the values it carried in `t`; and after any sequence `kvs` of inserts into the
empty tree the keys are the keys of `kvs`, each with the value most recently inserted for
it. -/
theorem insert_semantics (t : Node K V) (k : K) (v : V) (kvs : List (K × V))
    (h : invariants t) :
    (∃ t1, insert t k v = some t1 ∧
      (∀ x, x ∈ keys t1 ↔ x = k ∨ x ∈ keys t) ∧
      (k, v) ∈ toList t1 ∧ (∀ w, (k, w) ∈ toList t1 → w = v) ∧
      (∀ k1 v1, k1 ≠ k → ((k1, v1) ∈ toList t1 ↔ (k1, v1) ∈ toList t))) ∧
    (∃ t2, insert_all nil kvs = some t2 ∧
      (∀ x, x ∈ keys t2 ↔ x ∈ kvs.map Prod.fst) ∧
      (∀ k1 v1, (k1, v1) ∈ toList t2 ↔ latest kvs k1 = some v1)) := by
  constructor
  · obtain ⟨t1, e, _, _, m⟩ := insert_spec t k v h
    refine ⟨t1, e, mem_keys_insert m, (m _).2 (Or.inl rfl), ?_, ?_⟩
    · intro w hw
      rcases (m _).1 hw with h1 | ⟨h1, _⟩
      · exact congrArg Prod.snd h1
      · exact absurd rfl h1
    · intro k1 v1 hk
      rw [m]
      constructor
      · rintro (h1 | ⟨_, h1⟩)
        · exact absurd (congrArg Prod.fst h1) hk
        · exact h1
      · exact fun h1 => Or.inr ⟨hk, h1⟩
  · obtain ⟨t2, e, _, m⟩ := insert_all_spec kvs nil (invariants_nil (K := K) (V := V))
    have m1 : ∀ k1 v1, (k1, v1) ∈ toList t2 ↔ latest kvs k1 = some v1 := by
      intro k1 v1
      rw [m]
      simp
    refine ⟨t2, e, ?_, m1⟩
    intro x
    rw [← latest_isSome, mem_keys, Option.isSome_iff_exists]
    exact ⟨fun ⟨w, hw⟩ => ⟨w, (m1 x w).1 hw⟩, fun ⟨w, hw⟩ => ⟨w, (m1 x w).2 hw⟩⟩

/-- Claim C5. On a tree `t` satisfying the invariants and holding the key `k`, after
`remove k` the set of keys is `keys t` without `k` and every remaining key carries exactly the
values it carried in `t`. -/
theorem remove_semantics (t : Node K V) (k : K) (h : invariants t) (_hk : k ∈ keys t) :
    ∃ t1, remove t k = some t1 ∧
      (∀ x, x ∈ keys t1 ↔ x ∈ keys t ∧ x ≠ k) ∧
      (∀ k1 v1, (k1, v1) ∈ toList t1 ↔ k1 ≠ k ∧ (k1, v1) ∈ toList t) := by
  obtain ⟨t1, e, _, _, m⟩ := remove_spec t k h
  refine ⟨t1, e, mem_keys_remove m, ?_⟩
  intro k1 v1
  rw [m, List.mem_filter]
  simp only [ne_eq, decide_eq_true_eq]
  tauto

/-- Claim C6. On a tree `t` that satisfies the invariants and does not hold the key `k`,
`remove k` returns `t` itself: same structure, same colors, same keys and values. -/
theorem remove_absent_key (t : Node K V) (k : K) (h : invariants t) (hk : k ∉ keys t) :
    remove t k = some t := by
  obtain ⟨_, _, _, hc⟩ := h
  have e := remove_helper_absent k t hc hk
  cases t with
  | nil => simp [remove, e]
  | doubleBlackNilNode => simp at hc
  | node key val c l r =>
    have hc0 : ¬ c = DOUBLE_BLACK := by
      intro h0
      simp [h0] at hc
    simp [remove, e, hc0]

/-- Claim C7, as stated, fails: re-inserting the present key 3 into the tree built from 1, 2, 3
recolors both children of the root (the root has two red children, so `fix_red_edge` applies
`push_black` on the way back), and re-inserting the present key 5 into `tree_red_parent` even
rotates the tree. -/
theorem same_key_insert_changes_colors :
    valid tree_1_2_3 ∧ 3 ∈ keys tree_1_2_3 ∧
      insert tree_1_2_3 3 31 =
        some (node 2 20 BLACK (node 1 10 BLACK nil nil) (node 3 31 BLACK nil nil)) ∧
      shape (node 2 20 BLACK (node 1 10 BLACK nil nil) (node 3 31 BLACK nil nil)) ≠
        shape tree_1_2_3 ∧
      valid tree_red_parent ∧ 5 ∈ keys tree_red_parent ∧
      insert tree_red_parent 5 7 =
        some (node 20 20 BLACK
          (node 10 10 RED (node 5 7 BLACK nil nil) (node 15 15 BLACK nil nil))
          (node 50 50 RED (node 30 30 BLACK nil nil) (node 60 60 BLACK nil nil))) := by
  decide

/-- Claim C7, amended. On a valid tree `t` holding the key `k`, `insert k v` keeps the tree
valid, keeps the set of keys, stores `v` with `k` and leaves every other key with its values;
and when no node on the search path above the node of `k` has two red children, the result is
`t` with only that value overwritten: same structure and same color on every node. -/
theorem same_key_insert (t : Node K V) (k : K) (v : V) (h : valid t) (hk : k ∈ keys t) :
    (∃ t1, insert t k v = some t1 ∧ valid t1 ∧ (∀ x, x ∈ keys t1 ↔ x ∈ keys t) ∧
      (∀ p, p ∈ toList t1 ↔ p = (k, v) ∨ (p.1 ≠ k ∧ p ∈ toList t))) ∧
    (two_red_above k t = false →
      insert t k v = some (set_val k v t) ∧ shape (set_val k v t) = shape t) := by
  constructor
  · obtain ⟨t1, e, h1, _, m⟩ := insert_spec t k v h.1
    refine ⟨t1, e, h1, ?_, m⟩
    intro x
    rw [mem_keys_insert m]
    constructor
    · rintro (rfl | hx)
      · exact hk
      · exact hx
    · exact Or.inr
  · intro h2
    obtain ⟨⟨ho, hn, _, hc⟩, hr⟩ := h
    have e := insert_helper_present k v t hc hn ho hk h2
    refine ⟨?_, shape_set_val k v t⟩
    have hr1 := red_node_set_val k v t
    rw [hr] at hr1
    cases hs : set_val k v t with
    | nil =>
      rw [hs] at e
      cases t with
      | nil => simp [keys] at hk
      | doubleBlackNilNode => simp at hc
      | node key val c l r => simp only [set_val] at hs; split_ifs at hs
    | doubleBlackNilNode =>
      have := clean_set_val k v t
      rw [hs, hc] at this
      simp at this
    | node key val c l r =>
      rw [hs] at e hr1
      have hc0 : ¬ c = RED := by simpa using hr1
      simp [insert, e, hc0]

/-- Claim C8. Round trip: inserting a list of pairs with distinct keys into the empty tree, in
the given order, and then removing the keys in any permuted order yields the empty tree. -/
theorem insert_then_remove_all (kvs : List (K × V)) (ks : List K)
    (_hd : (kvs.map Prod.fst).Nodup) (hp : ks.Perm (kvs.map Prod.fst)) :
    (insert_all nil kvs).bind (fun t => remove_all t ks) = some nil := by
  obtain ⟨t1, e1, h1, m1⟩ := insert_all_spec kvs nil (invariants_nil (K := K) (V := V))
  obtain ⟨t2, e2, h2, m2⟩ := remove_all_spec ks t1 h1
  have hk : keys t2 = [] := by
    apply List.eq_nil_iff_forall_not_mem.2
    intro x hx
    obtain ⟨hx1, hx2⟩ := (m2 x).1 hx
    obtain ⟨w, hw⟩ := mem_keys.1 hx1
    have h3 := (m1 x w).1 hw
    simp only [toList, List.not_mem_nil, and_false, or_false] at h3
    exact hx2 (hp.mem_iff.2 (latest_isSome.1 (by simp [h3])))
  have ht : toList t2 = [] := by simpa [keys] using hk
  rw [e1, Option.some_bind, e2, eq_nil_of_toList h2.2.2.2 ht]

/-- Claim C9. No transient repair state survives a public operation: on a tree satisfying
the invariants, the trees returned by `remove k` and by `insert k v` hold the sentinel nowhere
(neither at the root nor at any child position) and hold no `DOUBLE_BLACK` node. -/
theorem no_transient_state_survives (t : Node K V) (k : K) (v : V) (h : invariants t) :
    (∃ t1, remove t k = some t1 ∧ clean t1 = true) ∧
      (∃ t2, insert t k v = some t2 ∧ clean t2 = true) := by
  obtain ⟨t1, e1, ⟨_, _, _, c1⟩, _⟩ := remove_spec t k h
  obtain ⟨t2, e2, ⟨⟨_, _, _, c2⟩, _⟩, _⟩ := insert_spec t k v h
  exact ⟨⟨t1, e1, c1⟩, ⟨t2, e2, c2⟩⟩

/-- Claim C10. On a tree satisfying invariants 1-4 (root black or not), `insert` and `remove`
run to completion: no assertion of `increment_color`, `decrement_color`, `splice` or the
`fix_*_doubleblack` functions fails and no field of `nullptr` is read or written (each of
these makes the model return `none`). -/
theorem mutators_run_to_completion (t : Node K V) (k : K) (v : V) (h : invariants t) :
    (insert t k v).isSome = true ∧ (remove t k).isSome = true := by
  obtain ⟨t1, e1, _⟩ := insert_spec t k v h
  obtain ⟨t2, e2, _⟩ := remove_spec t k h
  simp [e1, e2]

end

/-! ## The claims at concrete trees -/

/-- Claim C1 at `tree_10_to_70`, for the present key 20 and the absent key 25. -/
theorem remove_keeps_color_invariants_witness :
    invariants tree_10_to_70 ∧
      (∃ t1, remove tree_10_to_70 20 = some t1 ∧ no_red_red t1 = true ∧ uniform_black t1) ∧
      (∃ t1, remove tree_10_to_70 25 = some t1 ∧ no_red_red t1 = true ∧ uniform_black t1) :=
  ⟨by decide, remove_keeps_color_invariants tree_10_to_70 20 (by decide),
    remove_keeps_color_invariants tree_10_to_70 25 (by decide)⟩

/-- Claim C2 at `tree_10_to_70` and the new key 80. -/
theorem insert_keeps_color_invariants_witness :
    invariants tree_10_to_70 ∧
      ∃ t1, insert tree_10_to_70 80 80 = some t1 ∧ no_red_red t1 = true ∧ uniform_black t1 :=
  ⟨by decide, insert_keeps_color_invariants tree_10_to_70 80 80 (by decide)⟩

/-- Claim C3 at `tree_1_2_3` and the key 4. -/
theorem mutators_keep_ordering_witness :
    invariants tree_1_2_3 ∧
      (∃ t1, insert tree_1_2_3 4 40 = some t1 ∧ ordered t1 = true ∧ (keys t1).Nodup) ∧
      (∃ t2, remove tree_1_2_3 4 = some t2 ∧ ordered t2 = true ∧ (keys t2).Nodup) :=
  ⟨by decide, mutators_keep_ordering tree_1_2_3 4 40 (by decide)⟩

/-- Claim C4 at `tree_1_2_3`, re-inserting the key 3, and at a sequence of inserts that gives
the key 1 twice. -/
theorem insert_semantics_witness :
    invariants tree_1_2_3 ∧
      (∃ t1, insert tree_1_2_3 3 31 = some t1 ∧
        (∀ x, x ∈ keys t1 ↔ x = 3 ∨ x ∈ keys tree_1_2_3) ∧
        (3, 31) ∈ toList t1 ∧ (∀ w, (3, w) ∈ toList t1 → w = 31) ∧
        (∀ k1 v1, k1 ≠ 3 → ((k1, v1) ∈ toList t1 ↔ (k1, v1) ∈ toList tree_1_2_3))) ∧
      (∃ t2, insert_all nil [(1, 10), (2, 20), (1, 11)] = some t2 ∧
        (∀ x, x ∈ keys t2 ↔ x ∈ [(1, 10), (2, 20), (1, 11)].map Prod.fst) ∧
        (∀ k1 v1, (k1, v1) ∈ toList t2 ↔ latest [(1, 10), (2, 20), (1, 11)] k1 = some v1)) :=
  ⟨by decide, insert_semantics tree_1_2_3 3 31 [(1, 10), (2, 20), (1, 11)] (by decide)⟩

/-- Claim C5 at `tree_10_to_70` and the key 40, whose node has two children. -/
theorem remove_semantics_witness :
    invariants tree_10_to_70 ∧ 40 ∈ keys tree_10_to_70 ∧
      ∃ t1, remove tree_10_to_70 40 = some t1 ∧
        (∀ x, x ∈ keys t1 ↔ x ∈ keys tree_10_to_70 ∧ x ≠ 40) ∧
        (∀ k1 v1, (k1, v1) ∈ toList t1 ↔ k1 ≠ 40 ∧ (k1, v1) ∈ toList tree_10_to_70) :=
  ⟨by decide, by decide, remove_semantics tree_10_to_70 40 (by decide) (by decide)⟩

/-- Claim C6 at `tree_10_to_70` and the absent key 25. -/
theorem remove_absent_key_witness :
    invariants tree_10_to_70 ∧ 25 ∉ keys tree_10_to_70 ∧
      remove tree_10_to_70 25 = some tree_10_to_70 :=
  ⟨by decide, by decide, remove_absent_key tree_10_to_70 25 (by decide) (by decide)⟩

/-- Claim C7, amended, at `tree_10_to_70` and the present key 30. -/
theorem same_key_insert_witness :
    valid tree_10_to_70 ∧ 30 ∈ keys tree_10_to_70 ∧ two_red_above 30 tree_10_to_70 = false ∧
      (∃ t1, insert tree_10_to_70 30 31 = some t1 ∧ valid t1 ∧
        (∀ x, x ∈ keys t1 ↔ x ∈ keys tree_10_to_70) ∧
        (∀ p, p ∈ toList t1 ↔ p = (30, 31) ∨ (p.1 ≠ 30 ∧ p ∈ toList tree_10_to_70))) ∧
      insert tree_10_to_70 30 31 = some (set_val 30 31 tree_10_to_70) ∧
      shape (set_val 30 31 tree_10_to_70) = shape tree_10_to_70 :=
  ⟨by decide, by decide, by decide,
    (same_key_insert tree_10_to_70 30 31 (by decide) (by decide)).1,
    (same_key_insert tree_10_to_70 30 31 (by decide) (by decide)).2 (by decide)⟩

/-- Claim C8 for the keys 2, 1, 3 inserted in this order and removed in the order 3, 2, 1. -/
theorem insert_then_remove_all_witness :
    ([(2, 20), (1, 10), (3, 30)].map Prod.fst).Nodup ∧
      [3, 2, 1].Perm ([(2, 20), (1, 10), (3, 30)].map Prod.fst) ∧
      (insert_all (nil : Node Nat Nat) [(2, 20), (1, 10), (3, 30)]).bind
        (fun t => remove_all t [3, 2, 1]) = some nil :=
  ⟨by decide, by decide,
    insert_then_remove_all [(2, 20), (1, 10), (3, 30)] [3, 2, 1] (by decide) (by decide)⟩

/-- Claim C9 at `tree_10_to_70` and the key 10. -/
theorem no_transient_state_survives_witness :
    invariants tree_10_to_70 ∧
      (∃ t1, remove tree_10_to_70 10 = some t1 ∧ clean t1 = true) ∧
      (∃ t2, insert tree_10_to_70 10 11 = some t2 ∧ clean t2 = true) :=
  ⟨by decide, no_transient_state_survives tree_10_to_70 10 11 (by decide)⟩

/-- Claim C10 at `tree_red_parent`, inserting the key 12 and removing the key 30. -/
theorem mutators_run_to_completion_witness :
    invariants tree_red_parent ∧
      (insert tree_red_parent 12 12).isSome = true ∧ (remove tree_red_parent 30).isSome = true :=
  ⟨by decide, (mutators_run_to_completion tree_red_parent 12 12 (by decide)).1,
    (mutators_run_to_completion tree_red_parent 30 0 (by decide)).2⟩

/-! ## The claims on the checker, the depth and the single steps -/

/-- Claim C11. On a tree whose nodes are all RED or BLACK the checker `debug_print_helper`
prints no `ERROR!` line if and only if no red node has a red child and every path from the
root to an empty subtree passes through the same number of black nodes; it prints the red-red
error whenever some red node has a red child and the height error whenever the black counts
differ; and when it prints no error, the value it returns is the number of black nodes on
every such path. -/
theorem checker_sound_and_complete (t : Node K V) (indent : Nat) (h : clean t = true) :
    ∃ n out, debug_print_helper t indent = some (n, out) ∧
      ((∀ o ∈ out, o.is_error = false) ↔ (no_red_red t = true ∧ uniform_black t)) ∧
      (no_red_red t = false → Line.red_error ∈ out) ∧
      (¬ uniform_black t → Line.height_error ∈ out) ∧
      ((∀ o ∈ out, o.is_error = false) → ∀ x ∈ black_counts t, x = n) := by
  obtain ⟨out, e, h1, h2, h3⟩ := debug_print_helper_spec t indent h
  have hno : (∀ o ∈ out, o.is_error = false) ↔
      (balanced t = true ∧ no_red_red t = true) := by
    constructor
    · intro hall
      constructor
      · cases hb : balanced t
        · have := hall _ (h1.2 hb)
          simp [Line.is_error] at this
        · rfl
      · cases hn : no_red_red t
        · have := hall _ (h2.2 hn)
          simp [Line.is_error] at this
        · rfl
    · rintro ⟨hb, hn⟩ o ho
      cases hoe : o.is_error
      · rfl
      · rcases (is_error_iff o).1 hoe with rfl | rfl | rfl
        · rw [h1.1 ho] at hb; exact absurd hb (by decide)
        · rw [h2.1 ho] at hn; exact absurd hn (by decide)
        · exact absurd ho h3
  refine ⟨wbh t, out, e, ?_, h2.2, ?_, ?_⟩
  · rw [hno]
    constructor
    · rintro ⟨hb, hn⟩
      exact ⟨hn, uniform_of_balanced h hb⟩
    · rintro ⟨hn, hu⟩
      exact ⟨balanced_of_uniform t h hu, hn⟩
  · intro hu
    apply h1.2
    cases hb : balanced t
    · rfl
    · exact absurd (uniform_of_balanced h hb) hu
  · intro hall
    exact black_counts_of_balanced t h (hno.1 hall).1

/-- Claim C11 at the tree built from the keys 10, 20, ..., 70. -/
theorem checker_sound_and_complete_witness :
    clean tree_10_to_70 = true ∧
      ∃ n out, debug_print_helper tree_10_to_70 0 = some (n, out) ∧
        ((∀ o ∈ out, o.is_error = false) ↔
          (no_red_red tree_10_to_70 = true ∧ uniform_black tree_10_to_70)) ∧
        (no_red_red tree_10_to_70 = false → Line.red_error ∈ out) ∧
        (¬ uniform_black tree_10_to_70 → Line.height_error ∈ out) ∧
        ((∀ o ∈ out, o.is_error = false) → ∀ x ∈ black_counts tree_10_to_70, x = n) :=
  ⟨by decide, checker_sound_and_complete tree_10_to_70 0 (by decide)⟩

/-- Claim C12, as stated, fails: on the tree built by inserting 0, 1, ..., 7 the checker
returns the black-height 2 for the root, not 3. -/
theorem main_tree_height_is_not_three :
    (∃ out, (insert_all (nil : Node Nat Nat) main_pairs).bind debug_print = some (2, out)) ∧
      ¬ ∃ out, (insert_all (nil : Node Nat Nat) main_pairs).bind debug_print =
        some (3, out) := by
  refine ⟨⟨_, rfl⟩, ?_⟩
  rintro ⟨out, h⟩
  have h2 : Option.map Prod.fst ((insert_all (nil : Node Nat Nat) main_pairs).bind debug_print)
      = some 3 := by rw [h]; rfl
  exact absurd h2 (by decide)

/-- Claim C12, amended. Inserting the keys 0, 1, ..., 7 in ascending order into the empty tree
(value equal to key) yields a tree without red-red edge and with the same number of black
nodes on every path, on which the checker prints no error line and returns the black-height 2
for the root: the black nodes on a path, the empty subtree counting zero. -/
theorem main_tree_checked :
    ∃ t out, insert_all (nil : Node Nat Nat) main_pairs = some t ∧
      debug_print t = some (2, out) ∧ (∀ o ∈ out, o.is_error = false) ∧
      no_red_red t = true ∧ uniform_black t :=
  ⟨_, _, rfl, rfl, by decide, by decide, by decide⟩

/-- Claim C13. Inserting the keys 10, 20, ..., 70 in this order (with any values) into the
empty tree and then calling `remove 20` yields a tree that satisfies invariants 1-4, on which
the checker prints no error line, and whose keys read in order are 10, 30, 40, 50, 60, 70. -/
theorem scenario_remove_20 (f : Nat → V) :
    ∃ t t1 n out,
      insert_all nil ([10, 20, 30, 40, 50, 60, 70].map fun k => (k, f k)) = some t ∧
      remove t 20 = some t1 ∧ invariants t1 ∧ red_node t1 = false ∧
      keys t1 = [10, 30, 40, 50, 60, 70] ∧
      debug_print t1 = some (n, out) ∧ ∀ o ∈ out, o.is_error = false := by
  obtain ⟨out, e, hno⟩ := debug_print_no_error
    (node 30 (f 30) BLACK (node 10 (f 10) BLACK nil nil)
      (node 60 (f 60) RED (node 40 (f 40) BLACK nil (node 50 (f 50) RED nil nil))
        (node 70 (f 70) BLACK nil nil))) 0 rfl rfl rfl
  exact ⟨_, _, _, out, rfl, rfl, ⟨rfl, rfl, uniform_of_balanced rfl rfl, rfl⟩, rfl, rfl, e,
    hno⟩

section
variable [LinearOrder K]

/-- Claim C14. Every tree obtained from the empty tree by a finite sequence of `insert` and
`remove` calls has logarithmic depth: with `n` keys and `h` nodes on the longest path from the
root to an empty subtree, `2 ^ ceil(h / 2) ≤ n + 1`; and the nested calls of `insert_helper`,
and of `remove_helper` with `extract_min`, on such a tree number at most `h + 1`. -/
theorem logarithmic_depth (calls : List (Call K V)) :
    ∃ t, run nil calls = some t ∧ 2 ^ ((height t + 1) / 2) ≤ (keys t).length + 1 ∧
      ∀ k, insert_depth t k ≤ height t + 1 ∧ remove_depth t k ≤ height t + 1 := by
  obtain ⟨t, e, h⟩ := run_spec calls nil ⟨invariants_nil, rfl⟩
  exact ⟨t, e, depth_bound_of_valid h,
    fun k => ⟨insert_depth_le t k, remove_depth_le t k h.1.2.2.2⟩⟩

end

/-- Claim C15. Let `z` be a RED or BLACK node with a deficient child `d` (the sentinel or a
`DOUBLE_BLACK` node over clean children) whose black-height is one less than that of the
other child `s`, a valid subtree. Then `fix_doubleblack z` returns a subtree whose root is
`DOUBLE_BLACK` if and only if `z` is BLACK, `s` is BLACK and no child of `s` is red. In every
other case the returned subtree holds no `DOUBLE_BLACK` node and no sentinel and has on every
path the black count `z` had before the removal; and when `s` is black with a red child, the
root of the returned subtree carries the color of `z`. -/
theorem deficiency_passes_up_in_one_case (k : K) (v : V) (c : Color) (d s z : Node K V)
    (hc : c = RED ∨ c = BLACK)
    (sd : semi_clean d = true) (dd : is_double_black d = true) (bd : balanced d = true)
    (cs : clean s = true) (bs : balanced s = true) (ns : no_red_red s = true)
    (hw : black_height d + 1 = black_height s)
    (hz : z = node k v c d s ∨ z = node k v c s d) :
    ∃ t, fix_doubleblack z = some t ∧
      (root_color t = some DOUBLE_BLACK ↔
        c = BLACK ∧ root_color s = some BLACK ∧ has_red_child s = false) ∧
      (root_color t ≠ some DOUBLE_BLACK →
        clean t = true ∧ uniform_black t ∧
          ∀ x ∈ black_counts t, x = black_height s + (if c = BLACK then 1 else 0)) ∧
      (root_color s = some BLACK → has_red_child s = true → root_color t = some c) := by
  have hc1 : c ≠ DOUBLE_BLACK := by rcases hc with rfl | rfl <;> simp
  have hw1 : wbh d = wbh s := by
    rw [wbh_of_deficient sd dd, hw, black_height_of_clean s cs]
  have hwt : c.weight = if c = BLACK then 1 else 0 := by rcases hc with rfl | rfl <;> simp
  have key : ∀ t : Node K V,
      (root_color t ≠ some DOUBLE_BLACK →
        clean t = true ∧ balanced t = true ∧ wbh t = wbh s + c.weight) →
      (root_color t ≠ some DOUBLE_BLACK →
        clean t = true ∧ uniform_black t ∧
          ∀ x ∈ black_counts t, x = black_height s + (if c = BLACK then 1 else 0)) := by
    intro t h3 h
    obtain ⟨c1, b1, w1⟩ := h3 h
    refine ⟨c1, uniform_of_balanced c1 b1, ?_⟩
    intro x hx
    rw [black_counts_of_balanced t c1 b1 x hx, w1, black_height_of_clean s cs, hwt]
  rcases hz with rfl | rfl
  · obtain ⟨t, e, h1, h3, h4⟩ :=
      fix_doubleblack_deficient_left (k := k) (v := v) hc1 sd dd bd cs bs ns hw1
    exact ⟨t, e, h1, key t h3, h4⟩
  · obtain ⟨t, e, h1, h3, h4⟩ :=
      fix_doubleblack_deficient_right (k := k) (v := v) hc1 sd dd bd cs bs ns hw1
    exact ⟨t, e, h1, key t h3, h4⟩

/-- Claim C15 at a black node over the sentinel and a black leaf (the deficiency moves up) and
at the same node when the sibling has a red child (the deficiency is absorbed). -/
theorem deficiency_passes_up_in_one_case_witness :
    (∃ t, fix_doubleblack
        (node 20 20 BLACK doubleBlackNilNode (node 30 30 BLACK nil nil) : Node Nat Nat) =
          some t ∧
      (root_color t = some DOUBLE_BLACK ↔
        BLACK = BLACK ∧ root_color (node 30 30 BLACK nil nil : Node Nat Nat) = some BLACK ∧
          has_red_child (node 30 30 BLACK nil nil : Node Nat Nat) = false) ∧
      (root_color t ≠ some DOUBLE_BLACK →
        clean t = true ∧ uniform_black t ∧
          ∀ x ∈ black_counts t,
            x = black_height (node 30 30 BLACK nil nil : Node Nat Nat) +
              (if BLACK = BLACK then 1 else 0)) ∧
      (root_color (node 30 30 BLACK nil nil : Node Nat Nat) = some BLACK →
        has_red_child (node 30 30 BLACK nil nil : Node Nat Nat) = true →
          root_color t = some BLACK)) ∧
    (∃ t, fix_doubleblack
        (node 20 20 RED (node 10 10 BLACK (node 5 5 RED nil nil) nil) doubleBlackNilNode :
          Node Nat Nat) = some t ∧
      (root_color t = some DOUBLE_BLACK ↔
        RED = BLACK ∧
          root_color (node 10 10 BLACK (node 5 5 RED nil nil) nil : Node Nat Nat) =
            some BLACK ∧
          has_red_child (node 10 10 BLACK (node 5 5 RED nil nil) nil : Node Nat Nat) =
            false) ∧
      (root_color t ≠ some DOUBLE_BLACK →
        clean t = true ∧ uniform_black t ∧
          ∀ x ∈ black_counts t,
            x = black_height (node 10 10 BLACK (node 5 5 RED nil nil) nil : Node Nat Nat) +
              (if RED = BLACK then 1 else 0)) ∧
      (root_color (node 10 10 BLACK (node 5 5 RED nil nil) nil : Node Nat Nat) =
          some BLACK →
        has_red_child (node 10 10 BLACK (node 5 5 RED nil nil) nil : Node Nat Nat) = true →
          root_color t = some RED)) :=
  ⟨deficiency_passes_up_in_one_case 20 20 BLACK doubleBlackNilNode (node 30 30 BLACK nil nil)
      _ (Or.inr rfl) rfl rfl rfl rfl rfl rfl rfl (Or.inl rfl),
    deficiency_passes_up_in_one_case 20 20 RED doubleBlackNilNode
      (node 10 10 BLACK (node 5 5 RED nil nil) nil) _ (Or.inl rfl) rfl rfl rfl rfl rfl rfl rfl
      (Or.inr rfl)⟩

/-- Claim C16, as stated, fails: removing the key 20 from `tree_5_10_20_30`, whose root holds
20 and has two children, `remove_helper` first writes the successor 30 into the root and then
repairs the deficiency left by the black leaf 30 with a right rotation, so that the position
of the old root holds the key 10 and not the smallest key 30 of the former right subtree. -/
theorem two_child_removal_rotates :
    valid tree_5_10_20_30 ∧
      leftmost (node 30 30 BLACK nil nil : Node Nat Nat) = some (30, 30) ∧
      remove_helper tree_5_10_20_30 20 =
        some (node 10 10 BLACK (node 5 5 BLACK nil nil) (node 30 30 BLACK nil nil)) ∧
      ¬ ∃ c l r, remove_helper tree_5_10_20_30 20 = some (node 30 30 c l r) := by
  refine ⟨by decide, rfl, rfl, ?_⟩
  rintro ⟨c, l, r, h⟩
  have h5 : remove_helper tree_5_10_20_30 20 =
      some (node 10 10 BLACK (node 5 5 BLACK nil nil) (node 30 30 BLACK nil nil)) := rfl
  rw [h5] at h
  injection h with h
  injection h with h6
  exact absurd h6 (by decide)

section
variable [LinearOrder K]

/-- Claim C16, amended. Let `x = node k val c l r` satisfy the invariants and have two real
children. Then `extract_min r` hands back the leftmost pair `(mk, mv)` of `r`, whose key is the
smallest key of `r`, together with a subtree `r1` holding the pairs of `r` without it;
`remove_helper x k` is `fix_doubleblack` applied to `x` with that pair written into it, with
its left subtree `l` untouched and with `r1` as right subtree; the subtree it returns holds,
in order, the pairs of `l`, then `(mk, mv)`, then the pairs of `r1`; and when `r1` is not
deficient, the returned subtree is that node itself. Moreover `extract_min u` on any non-empty
subtree `u` satisfying the invariants hands back the leftmost pair of `u` and `u` without that
pair. -/
theorem two_child_removal (k : K) (val : V) (c : Color) (l r u : Node K V)
    (h : invariants (node k val c l r)) (hl : is_null l = false) (hr : is_null r = false)
    (hu : invariants u) (hun : is_null u = false) :
    (∃ r1 mk mv, extract_min r = some (r1, mk, mv) ∧ leftmost r = some (mk, mv) ∧
      toList r = (mk, mv) :: toList r1 ∧ (∀ p ∈ toList r1, mk < p.1) ∧
      remove_helper (node k val c l r) k = fix_doubleblack (node mk mv c l r1) ∧
      ∃ t1, remove_helper (node k val c l r) k = some t1 ∧
        toList t1 = toList l ++ (mk, mv) :: toList r1 ∧
        (is_double_black r1 = false → t1 = node mk mv c l r1)) ∧
    (∃ u1 mk mv, extract_min u = some (u1, mk, mv) ∧ leftmost u = some (mk, mv) ∧
      toList u = (mk, mv) :: toList u1 ∧ ∀ p ∈ toList u1, mk < p.1) := by
  have ext : ∀ w : Node K V, invariants w → is_null w = false →
      ∃ w1 mk mv, extract_min w = some (w1, mk, mv) ∧ leftmost w = some (mk, mv) ∧
        toList w = (mk, mv) :: toList w1 ∧ (∀ p ∈ toList w1, mk < p.1) ∧
        removal_result w w1 := by
    intro w hw hwn
    obtain ⟨ho, hn, hu1, hc⟩ := hw
    obtain ⟨w1, mk, mv, e, hres, hm⟩ :=
      extract_min_inv w hc (balanced_of_uniform w hc hu1) hn hwn
    refine ⟨w1, mk, mv, e, ?_, hm, head_lt_of_ordered ho hm, hres⟩
    rw [leftmost_eq_head, hm]
    rfl
  constructor
  · obtain ⟨ho, hn, hu1, hc⟩ := h
    have hb := balanced_of_uniform _ hc hu1
    have inv_r : invariants r := by
      simp only [clean, balanced, no_red_red, Bool.and_eq_true] at hc hb hn
      exact ⟨ordered_right ho, hn.2, uniform_of_balanced hc.2 hb.2, hc.2⟩
    obtain ⟨r1, mk, mv, e, hlm, hm, hlt, hres⟩ := ext r inv_r hr
    have e1 : remove_helper (node k val c l r) k = fix_doubleblack (node mk mv c l r1) := by
      simp [remove_helper, hl, hr, e]
    obtain ⟨t1, e2, _, m2⟩ := remove_helper_inv k (node k val c l r) hc hb hn
    have m3 := m2 ho
    obtain ⟨o1, o2, _, _⟩ := ordered_node.1 ho
    refine ⟨r1, mk, mv, e, hlm, hm, hlt, e1, t1, e2, ?_, ?_⟩
    · rw [m3, toList, List.filter_append, List.filter_cons, filter_ne_of_lt o1,
        filter_ne_of_gt o2, hm]
      simp
    · intro hd
      have cl : clean l = true := by
        simp only [clean, Bool.and_eq_true] at hc
        exact hc.1.2
      have e3 : fix_doubleblack (node mk mv c l r1) = some (node mk mv c l r1) := by
        simp [fix_doubleblack, is_double_black_of_clean cl, hd]
      rw [e1, e3] at e2
      exact (Option.some.inj e2).symm
  · obtain ⟨u1, mk, mv, e, hlm, hm, hlt, _⟩ := ext u hu hun
    exact ⟨u1, mk, mv, e, hlm, hm, hlt⟩

/-- Witness for `two_child_removal`: removing the root key 2 of the tree with the keys 1, 2,
3, and extracting the minimum of the one-node subtree holding 1. -/
theorem two_child_removal_witness :
    invariants (node 2 2 BLACK (node 1 1 RED nil nil) (node 3 3 RED nil nil) : Node Nat Nat) ∧
    (∃ r1 mk mv, extract_min (node 3 3 RED nil nil : Node Nat Nat) = some (r1, mk, mv) ∧
      leftmost (node 3 3 RED nil nil : Node Nat Nat) = some (mk, mv) ∧
      toList (node 3 3 RED nil nil : Node Nat Nat) = (mk, mv) :: toList r1 ∧
      (∀ p ∈ toList r1, mk < p.1) ∧
      remove_helper (node 2 2 BLACK (node 1 1 RED nil nil) (node 3 3 RED nil nil)) 2 =
        fix_doubleblack (node mk mv BLACK (node 1 1 RED nil nil) r1) ∧
      ∃ t1, remove_helper (node 2 2 BLACK (node 1 1 RED nil nil) (node 3 3 RED nil nil)) 2 =
          some t1 ∧
        toList t1 = toList (node 1 1 RED nil nil : Node Nat Nat) ++ (mk, mv) :: toList r1 ∧
        (is_double_black r1 = false → t1 = node mk mv BLACK (node 1 1 RED nil nil) r1)) ∧
    (∃ u1 mk mv, extract_min (node 1 1 RED nil nil : Node Nat Nat) = some (u1, mk, mv) ∧
      leftmost (node 1 1 RED nil nil : Node Nat Nat) = some (mk, mv) ∧
      toList (node 1 1 RED nil nil : Node Nat Nat) = (mk, mv) :: toList u1 ∧
      ∀ p ∈ toList u1, mk < p.1) :=
  ⟨by decide,
    two_child_removal 2 2 BLACK (node 1 1 RED nil nil) (node 3 3 RED nil nil)
      (node 1 1 RED nil nil) (by decide) rfl rfl (by decide) rfl⟩

/-- Claim C17. For every valid tree, `insert` returns a tree whose root is a `BLACK` node, and
`remove` returns a tree that is either empty or has a `BLACK` node as its root. -/
theorem root_black_after_mutation (t : Node K V) (k : K) (v : V) (h : valid t) :
    (∃ t1, insert t k v = some t1 ∧ root_color t1 = some BLACK) ∧
    (∃ t2, remove t k = some t2 ∧ (t2 = nil ∨ root_color t2 = some BLACK)) := by
  obtain ⟨hi, hr⟩ := h
  constructor
  · obtain ⟨t1, e, ⟨⟨_, _, _, c1⟩, r1⟩, n1, _⟩ := insert_spec t k v hi
    refine ⟨t1, e, ?_⟩
    rcases nil_or_black_of_clean c1 r1 with h1 | h1
    · rw [h1] at n1
      simp at n1
    · exact h1
  · obtain ⟨t2, e, ⟨_, _, _, c2⟩, r2, _⟩ := remove_spec t k hi
    exact ⟨t2, e, nil_or_black_of_clean c2 (r2 hr)⟩

/-- Witness for `root_black_after_mutation`: inserting the key 40 with the value 45 into, and
removing the key 40 from, `tree_10_to_70`. -/
theorem root_black_after_mutation_witness :
    valid tree_10_to_70 ∧
    (∃ t1, insert tree_10_to_70 40 45 = some t1 ∧ root_color t1 = some BLACK) ∧
    (∃ t2, remove tree_10_to_70 40 = some t2 ∧ (t2 = nil ∨ root_color t2 = some BLACK)) :=
  ⟨by decide, root_black_after_mutation tree_10_to_70 40 45 (by decide)⟩

end

/-- Claim C18. For a node `n` colored `BLACK` or `DOUBLE_BLACK` whose two children are
ordinary nodes colored `RED` or `BLACK`, `push_black n` succeeds and `pull_black` of its result
is `n` again; for a node `m` colored `RED` or `BLACK` whose two children are ordinary nodes
colored `BLACK` or `DOUBLE_BLACK`, `pull_black m` succeeds and `push_black` of its result is
`m` again. -/
theorem pull_black_inverts_push_black (n l r m l2 r2 : Node K V)
    (hn : root_color n = some BLACK ∨ root_color n = some DOUBLE_BLACK)
    (hnl : n.left? = some l) (hnr : n.right? = some r)
    (hl : root_color l = some RED ∨ root_color l = some BLACK)
    (hr : root_color r = some RED ∨ root_color r = some BLACK)
    (hm : root_color m = some RED ∨ root_color m = some BLACK)
    (hml : m.left? = some l2) (hmr : m.right? = some r2)
    (hl2 : root_color l2 = some BLACK ∨ root_color l2 = some DOUBLE_BLACK)
    (hr2 : root_color r2 = some BLACK ∨ root_color r2 = some DOUBLE_BLACK) :
    (∃ n1, push_black n = some n1 ∧ pull_black n1 = some n) ∧
    (∃ m1, pull_black m = some m1 ∧ push_black m1 = some m) := by
  constructor
  · cases n with
    | nil => simp [root_color] at hn
    | doubleBlackNilNode => simp [root_color] at hn
    | node k v c a b =>
      simp only [Node.left?, Node.right?, Option.some.injEq] at hnl hnr
      subst hnl hnr
      cases a with
      | nil => simp [root_color] at hl
      | doubleBlackNilNode => simp [root_color] at hl
      | node ak av ac al ar =>
        cases b with
        | nil => simp [root_color] at hr
        | doubleBlackNilNode => simp [root_color] at hr
        | node bk bv bc bl br =>
          simp only [root_color_node, Option.some.injEq] at hn hl hr
          rcases hn with rfl | rfl <;> rcases hl with rfl | rfl <;> rcases hr with rfl | rfl <;>
            exact ⟨_, rfl, rfl⟩
  · cases m with
    | nil => simp [root_color] at hm
    | doubleBlackNilNode => simp [root_color] at hm
    | node k v c a b =>
      simp only [Node.left?, Node.right?, Option.some.injEq] at hml hmr
      subst hml hmr
      cases a with
      | nil => simp [root_color] at hl2
      | doubleBlackNilNode => simp [root_color] at hl2
      | node ak av ac al ar =>
        cases b with
        | nil => simp [root_color] at hr2
        | doubleBlackNilNode => simp [root_color] at hr2
        | node bk bv bc bl br =>
          simp only [root_color_node, Option.some.injEq] at hm hl2 hr2
          rcases hm with rfl | rfl <;> rcases hl2 with rfl | rfl <;>
            rcases hr2 with rfl | rfl <;> exact ⟨_, rfl, rfl⟩

/-- Witness for `pull_black_inverts_push_black`: a black node with two red children, and the
red node with two black children that `push_black` makes of it. -/
theorem pull_black_inverts_push_black_witness :
    (∃ n1, push_black (node 2 2 BLACK (node 1 1 RED nil nil) (node 3 3 RED nil nil) :
        Node Nat Nat) = some n1 ∧
      pull_black n1 = some (node 2 2 BLACK (node 1 1 RED nil nil) (node 3 3 RED nil nil))) ∧
    (∃ m1, pull_black (node 2 2 RED (node 1 1 BLACK nil nil) (node 3 3 BLACK nil nil) :
        Node Nat Nat) = some m1 ∧
      push_black m1 = some (node 2 2 RED (node 1 1 BLACK nil nil) (node 3 3 BLACK nil nil))) :=
  pull_black_inverts_push_black
    (node 2 2 BLACK (node 1 1 RED nil nil) (node 3 3 RED nil nil))
    (node 1 1 RED nil nil) (node 3 3 RED nil nil)
    (node 2 2 RED (node 1 1 BLACK nil nil) (node 3 3 BLACK nil nil))
    (node 1 1 BLACK nil nil) (node 3 3 BLACK nil nil)
    (Or.inl rfl) rfl rfl (Or.inl rfl) (Or.inl rfl) (Or.inl rfl) rfl rfl (Or.inl rfl) (Or.inl rfl)

/-- Claim C19. On a node with key `k`, value `v`, color `c` and children `l`, `r`,
`increment_color` fails exactly when `c` is `DOUBLE_BLACK`, and otherwise turns `RED` into
`BLACK` and `BLACK` into `DOUBLE_BLACK`; `decrement_color` fails exactly when `c` is `RED`, and
otherwise turns `DOUBLE_BLACK` into `BLACK` and `BLACK` into `RED`; a step that succeeds
returns the node with the same key, value and children, its color moved by one. -/
theorem color_steps_fail_exactly_out_of_range (k : K) (v : V) (c : Color) (l r : Node K V) :
    (increment_color (node k v c l r) = none ↔ c = DOUBLE_BLACK) ∧
    increment_color (node k v RED l r) = some (node k v BLACK l r) ∧
    increment_color (node k v BLACK l r) = some (node k v DOUBLE_BLACK l r) ∧
    (decrement_color (node k v c l r) = none ↔ c = RED) ∧
    decrement_color (node k v DOUBLE_BLACK l r) = some (node k v BLACK l r) ∧
    decrement_color (node k v BLACK l r) = some (node k v RED l r) ∧
    (c = DOUBLE_BLACK ∨
      ∃ c1, increment_color (node k v c l r) = some (node k v c1 l r) ∧
        c1.toNat = c.toNat + 1) ∧
    (c = RED ∨
      ∃ c1, decrement_color (node k v c l r) = some (node k v c1 l r) ∧
        c1.toNat + 1 = c.toNat) := by
  refine ⟨?_, rfl, rfl, ?_, rfl, rfl, ?_, ?_⟩
  · cases c <;> simp [increment_color]
  · cases c <;> simp [decrement_color]
  · cases c
    · exact Or.inr ⟨BLACK, rfl, rfl⟩
    · exact Or.inr ⟨DOUBLE_BLACK, rfl, rfl⟩
    · exact Or.inl rfl
  · cases c
    · exact Or.inl rfl
    · exact Or.inr ⟨RED, rfl, rfl⟩
    · exact Or.inr ⟨BLACK, rfl, rfl⟩

/-- Claim C20. For a node `n` with an ordinary right child, `rotate_left n` and `flip_left n`
return a tree with the same in-order sequence of key/value pairs as `n`; `rotate_left` keeps
the color of every node, and `rotate_right` undoes it; `flip_left` gives every node the color
it has in `n` after the colors of `n` and of its right child are exchanged. The same holds for
`rotate_right` and `flip_right` on a node `m` with an ordinary left child. -/
theorem rotations_and_flips_keep_order (k : K) (v : V) (c : Color) (l r : Node K V)
    (ck : K) (cv : V) (cc : Color) (cl cr : Node K V) :
    (∃ t, rotate_left (node k v c l (node ck cv cc cl cr)) = some t ∧
      toList t = toList (node k v c l (node ck cv cc cl cr)) ∧
      colored t = colored (node k v c l (node ck cv cc cl cr)) ∧
      rotate_right t = some (node k v c l (node ck cv cc cl cr))) ∧
    (∃ t, flip_left (node k v c l (node ck cv cc cl cr)) = some t ∧
      toList t = toList (node k v c l (node ck cv cc cl cr)) ∧
      colored t = colored (node k v cc l (node ck cv c cl cr))) ∧
    (∃ t, rotate_right (node k v c (node ck cv cc cl cr) r) = some t ∧
      toList t = toList (node k v c (node ck cv cc cl cr) r) ∧
      colored t = colored (node k v c (node ck cv cc cl cr) r) ∧
      rotate_left t = some (node k v c (node ck cv cc cl cr) r)) ∧
    (∃ t, flip_right (node k v c (node ck cv cc cl cr) r) = some t ∧
      toList t = toList (node k v c (node ck cv cc cl cr) r) ∧
      colored t = colored (node k v cc (node ck cv c cl cr) r)) := by
  refine ⟨⟨_, rfl, ?_, ?_, rfl⟩, ⟨_, rfl, ?_, ?_⟩, ⟨_, rfl, ?_, ?_, rfl⟩, ⟨_, rfl, ?_, ?_⟩⟩ <;>
    simp [toList, colored]

end RedBlackTree
